import Mathlib

/-!
# gopidof: the process enumerators and the pipeline of `main`

A shallow embedding of `pid_linux.go`, `pid_darwin.go` and `main.go`.

* Go strings are modelled as lists of Unicode code points (`Str`), that is, as
  valid UTF-8 text; Go's `int` is the 64-bit signed integer, modelled as `Int`
  (the width matters only in the range check of `strconv.Atoi`).
* The operating system is an explicit argument: the Linux enumerator reads a
  `linux.ProcFS` (the listing of `/proc` and the contents of files), the Darwin
  enumerator a `darwin.Kernel` (the two `sysctl` queries), and `main` takes the
  outcome of option parsing, the enumerator, its own process identifier and
  the routing of the signals it sends.
* The program installs no signal handler: a signal that the kill loop sends and
  that is delivered to the program itself ends it there, before anything is
  printed.
* A loop that appends to a slice is a left fold of its body over the list.
* What `main` does is an `Outcome`: exit code, writes to standard output, lines
  on standard error, signals sent.

The file has the definitions first (the Go library functions the program calls,
the enumerators, `main`, the definitions used to state properties, sample
inputs), then the lemmas, then one theorem for each claim.
-/

namespace Gopidof

/-- A Go string: a sequence of code points. -/
abbrev Str := List Char

/-! ## Standard library: strconv -/

/-- The two error kinds of `strconv.NumError`. -/
inductive NumError where
  | ErrSyntax
  | ErrRange
  deriving DecidableEq

/-- The largest `uint64`. -/
def maxUint64 : Nat := 2 ^ 64 - 1

/-- A decimal digit, `'0' <= c && c <= '9'`. -/
def isDigit (c : Char) : Bool := decide (48 ≤ c.toNat) && decide (c.toNat ≤ 57)

/-- The digit loop of `strconv.ParseUint(s, 10, 64)`: `n` is the value read so
far.  A character that is not a decimal digit is a syntax error with value 0; an
overflow is a range error with value `maxUint64`, returned at once. -/
def parseUintLoop : List Char → Nat → Nat × Option NumError
  | [], n => (n, none)
  | c :: cs, n =>
    if isDigit c then
      let d := c.toNat - 48
      if n ≥ maxUint64 / 10 + 1 then (maxUint64, some NumError.ErrRange)
      else
        let n10 := n * 10
        let n1 := (n10 + d) % 2 ^ 64
        if n1 < n10 ∨ n1 > maxUint64 then (maxUint64, some NumError.ErrRange)
        else parseUintLoop cs n1
    else (0, some NumError.ErrSyntax)

/-- The function `strconv.ParseUint(s, 10, 64)`. -/
def ParseUint (s : Str) : Nat × Option NumError :=
  if s = [] then (0, some NumError.ErrSyntax) else parseUintLoop s 0

/-- The function `strconv.ParseInt(s, 10, 0)` with 64-bit `int`: an optional
sign, then `ParseUint`; a syntax error gives 0, a value out of range gives the
nearest of `-2^63` and `2^63 - 1` together with a range error. -/
def ParseInt (s : Str) : Int × Option NumError :=
  match s with
  | [] => (0, some NumError.ErrSyntax)
  | c :: cs =>
    let neg : Bool := c = '-'
    let body : Str := if c = '+' ∨ c = '-' then cs else s
    match ParseUint body with
    | (_, some NumError.ErrSyntax) => (0, some NumError.ErrSyntax)
    | (un, _) =>
      let cutoff : Nat := 2 ^ 63
      if !neg ∧ un ≥ cutoff then ((cutoff : Int) - 1, some NumError.ErrRange)
      else if neg ∧ un > cutoff then (-(cutoff : Int), some NumError.ErrRange)
      else (if neg then -(un : Int) else (un : Int), none)

/-- The function `strconv.Atoi`: value and error.  (Its fast path for short
inputs computes the same result as `ParseInt(s, 10, 0)`.) -/
def Atoi (s : Str) : Int × Option NumError := ParseInt s

/-- The decimal digits of `u`, most significant first, as `formatBits` writes
them: the last digit is peeled off while `u >= 10`.  `fuel` bounds the number of
digits. -/
def formatBits : Nat → Nat → List Char → List Char
  | 0, _, acc => acc
  | fuel + 1, u, acc =>
    if u ≥ 10 then formatBits fuel (u / 10) (Char.ofNat (48 + u % 10) :: acc)
    else Char.ofNat (48 + u) :: acc

/-- The function `strconv.Itoa`: decimal digits, with a leading `-` when
negative. -/
def Itoa (i : Int) : Str :=
  if i < 0 then '-' :: formatBits (i.natAbs + 1) i.natAbs []
  else formatBits (i.natAbs + 1) i.natAbs []

/-! ## Standard library: strings, bytes, filepath -/

/-- The predicate `unicode.IsSpace`. -/
def IsSpace (c : Char) : Bool :=
  let r := c.toNat
  decide (9 ≤ r ∧ r ≤ 13) || r == 32 || r == 0x85 || r == 0xA0 || r == 0x1680 ||
    decide (0x2000 ≤ r ∧ r ≤ 0x200a) || r == 0x2028 || r == 0x2029 || r == 0x202f ||
    r == 0x205f || r == 0x3000

/-- The function `strings.TrimSpace`: leading and trailing white space removed. -/
def TrimSpace (s : Str) : Str :=
  ((s.dropWhile IsSpace).reverse.dropWhile IsSpace).reverse

/-- The function `strings.HasPrefix`. -/
def HasPrefix (s p : Str) : Bool :=
  decide (p.length ≤ s.length) && (s.take p.length == p)

/-- The function `strings.HasSuffix`. -/
def HasSuffix (s p : Str) : Bool :=
  decide (p.length ≤ s.length) && (s.drop (s.length - p.length) == p)

/-- The function `bytes.Split(s, []byte{sep})` for a one-byte separator: the
fields between the separators, one more than there are separators. -/
def Split (s : Str) (sep : Char) : List Str :=
  match s with
  | [] => [[]]
  | c :: cs =>
    if c = sep then [] :: Split cs sep
    else
      match Split cs sep with
      | [] => [[c]]
      | h :: t => (c :: h) :: t

/-- The null byte. -/
def NUL : Char := Char.ofNat 0

/-- The function `filepath.Base` on a Unix system: `"."` for the empty path;
otherwise trailing slashes are stripped and what follows the last remaining
slash is returned, `"/"` if nothing is left. -/
def Base (path : Str) : Str :=
  if path = [] then ['.']
  else
    let stripped := (path.reverse.dropWhile (fun c => c == '/')).reverse
    let last := (stripped.reverse.takeWhile (fun c => c != '/')).reverse
    if last = [] then ['/'] else last

/-- The function `filepath.Join` on the three elements `"/proc"`, a directory
entry name and a file name (cleaning leaves such a path unchanged). -/
def Join (root pid file : Str) : Str := root ++ '/' :: pid ++ '/' :: file

/-- The function `strings.Join`. -/
def strings_Join (elems : List Str) (sep : Str) : Str :=
  match elems with
  | [] => []
  | [e] => e
  | e :: rest => e ++ sep ++ strings_Join rest sep

/-! ## Standard library: sort -/

/-- Go's `<` on strings: lexicographic order, code point by code point (which
is the order of the UTF-8 bytes). -/
def strLess : Str → Str → Bool
  | [], [] => false
  | [], _ :: _ => true
  | _ :: _, [] => false
  | a :: as, b :: bs =>
    decide (a.toNat < b.toNat) || (decide (a.toNat = b.toNat) && strLess as bs)

/-- Insertion of `a` into a sorted list, before the first element not less
than it. -/
def sortInsert (a : Str) : List Str → List Str
  | [] => [a]
  | b :: l => if strLess b a then b :: sortInsert a l else a :: b :: l

/-- The function `sort.Strings`: the strings in increasing order. -/
def sort_Strings : List Str → List Str
  | [] => []
  | a :: l => sortInsert a (sort_Strings l)

/-! ## The inner argument loop shared by both enumerators -/

/-- The loop `for _, a := range parts { if filepath.Base(string(a)) == target
{ pids = append(pids, pid); break } }` of both enumerators. -/
def scanArgs (target pid : Str) : List Str → List Str → List Str
  | [], pids => pids
  | a :: parts, pids =>
    if Base a = target then pids ++ [pid] else scanArgs target pid parts pids

/-! ## pid_linux.go -/

namespace linux

/-- What the Linux enumerator reads: the result of `os.ReadDir("/proc")` (the
entry names, or an error) and `os.ReadFile` as a function of the path (`none`
when the read fails). -/
structure ProcFS where
  ReadDir : Except Str (List Str)
  ReadFile : Str → Option Str

/-- One iteration of the loop over the directory entries: `pids` is the slice
built so far, `pid` the entry name; the result is the slice after the
iteration. -/
def loopBody (fs : ProcFS) (target : Str) (exact : Bool) (pids : List Str) (pid : Str) :
    List Str :=
  match (Atoi pid).2 with
  | some _ => pids
  | none =>
    match fs.ReadFile (Join "/proc".toList pid "comm".toList) with
    | none => pids
    | some commBytes =>
      let comm := TrimSpace commBytes
      if HasPrefix comm ['['] && HasSuffix comm [']'] then pids
      else if comm = target then pids ++ [pid]
      else if exact then
        match fs.ReadFile (Join "/proc".toList pid "cmdline".toList) with
        | none => pids
        | some cmdline =>
          if cmdline.length > 0 then scanArgs target pid (Split cmdline NUL) pids
          else pids
      else pids

/-- The function `FindPIDs` of `pid_linux.go`. -/
def FindPIDs (fs : ProcFS) (target : Str) (exact : Bool) : Except Str (List Str) :=
  match fs.ReadDir with
  | Except.error err => Except.error err
  | Except.ok entries => Except.ok (entries.foldl (loopBody fs target exact) [])

end linux

/-! ## pid_darwin.go -/

namespace darwin

/-- The one field of `unix.KinfoProc` the enumerator reads, `Proc.P_pid` (an
`int32`). -/
structure KinfoProc where
  P_pid : Int

/-- What the Darwin enumerator reads: the result of
`unix.SysctlKinfoProcSlice("kern.proc.all")` and `unix.SysctlRaw("kern.procargs2",
pid)` as a function of `pid` (`none` when the call fails).  The raw buffer is a
`Str` whose first four elements stand for the four bytes of the argument count. -/
structure Kernel where
  SysctlKinfoProcSlice : Except Str (List KinfoProc)
  SysctlRaw : Int → Option Str

/-- One iteration of the loop over the process records. -/
def loopBody (k : Kernel) (target : Str) (exact : Bool) (pids : List Str) (kp : KinfoProc) :
    List Str :=
  let pid := kp.P_pid
  if pid ≤ 0 then pids
  else
    match k.SysctlRaw pid with
    | none => pids
    | some raw =>
      if raw.length < 4 then pids
      else
        let argv := raw.drop 4
        match Split argv NUL with
        | [] => pids
        | part0 :: rest =>
          let exe := Base part0
          if exe = target then pids ++ [Itoa pid]
          else if exact then scanArgs target (Itoa pid) rest pids
          else pids

/-- The function `FindPIDs` of `pid_darwin.go`. -/
def FindPIDs (k : Kernel) (target : Str) (exact : Bool) : Except Str (List Str) :=
  match k.SysctlKinfoProcSlice with
  | Except.error err => Except.error ("sysctl: ".toList ++ err)
  | Except.ok kprocs => Except.ok (kprocs.foldl (loopBody k target exact) [])

end darwin

/-! ## main.go -/

/-- The command-line options. -/
structure Options where
  Single : Bool
  Kill : Bool
  Exact : Bool
  IgnoreSelf : Bool
  JSON : Bool
  MinPID : Int
  MaxPID : Int

/-- A signal number. -/
abbrev Signal := Nat

/-- The signal `syscall.SIGINT`. -/
def SIGINT : Signal := 2

/-- The signal `syscall.SIGTERM`. -/
def SIGTERM : Signal := 15

/-- The value `os.Interrupt`, which is `syscall.SIGINT`. -/
def os_Interrupt : Signal := SIGINT

/-- A write to standard output: `fmt.Println(s)` or
`json.NewEncoder(os.Stdout).Encode(v)`. -/
inductive Write where
  | Println (s : Str)
  | Encode (v : List Str)
  deriving DecidableEq

/-- What one run of `main` does: the exit status as a shell reports it (the
argument of `os.Exit`, 0 when `main` returns, 2 after a Go run-time error, 128 +
n when signal n ends the process), the writes to standard output, the lines
written to standard error and the calls of `proc.Signal` made (process
argument, signal), in order. -/
structure Outcome where
  exitCode : Nat
  stdout : List Write
  stderr : List Str
  signals : List (Int × Signal)
  deriving DecidableEq

/-- One iteration of the numeric filtering loop: `filtered` so far, `p` the
identifier. -/
def filterBody (opts : Options) (filtered : List Str) (p : Str) : List Str :=
  let num := (Atoi p).1
  if opts.MinPID > 0 ∧ num < opts.MinPID then filtered
  else if opts.MaxPID > 0 ∧ num > opts.MaxPID then filtered
  else filtered ++ [p]

/-- The numeric filtering loop of `main`. -/
def numericFilter (opts : Options) (pids : List Str) : List Str :=
  pids.foldl (filterBody opts) []

/-- One iteration of the self-exclusion loop. -/
def ignoreSelfBody (self : Int) (tmp : List Str) (p : Str) : List Str :=
  if Itoa self ≠ p then tmp ++ [p] else tmp

/-- The self-exclusion block of `main`; `self` is `os.Getpid()`. -/
def ignoreSelf (opts : Options) (self : Int) (pids : List Str) : List Str :=
  if opts.IgnoreSelf then pids.foldl (ignoreSelfBody self) [] else pids

/-- The slice expression `pids[:1]`: a run-time error on a slice without
elements. -/
def sliceTo1 (pids : List Str) : Option (List Str) :=
  match pids with
  | [] => none
  | p :: _ => some [p]

/-- Whether the signal sent to the process argument `pid` is delivered to the
program itself: it is when `pid` is the program's own identifier `self`; `routed`
is the answer of the operating system for the other arguments (a negative
argument that names the program's process group, an argument the kernel
truncates to its identifier). -/
def hitsSelf (self : Int) (routed : Int → Bool) (pid : Int) : Bool :=
  decide (pid = self) || routed pid

/-- The kill loop: `os.FindProcess` does not fail on a Unix system, so
`proc.Signal(os.Interrupt)` is called for each identifier in turn; a failure to
deliver is ignored.  No handler is installed, so a signal delivered to the
program itself ends it (it is taken as delivered before `Signal` returns): the
loop stops there.  The result is the calls made and whether the program was
ended. -/
def killLoop (self : Int) (routed : Int → Bool) : List Str → List (Int × Signal) × Bool
  | [] => ([], false)
  | p :: rest =>
    let pid := (Atoi p).1
    if hitsSelf self routed pid then ([(pid, os_Interrupt)], true)
    else ((pid, os_Interrupt) :: (killLoop self routed rest).1, (killLoop self routed rest).2)

/-- The end of `main`, from the kill block on: `pids` is the final slice.  When
the kill loop ends the program nothing is printed and the exit status is that of
a process ended by `os.Interrupt`. -/
def emit (opts : Options) (self : Int) (routed : Int → Bool) (pids : List Str) : Outcome :=
  let killed := if opts.Kill then killLoop self routed pids else ([], false)
  if killed.2 then ⟨128 + os_Interrupt, [], [], killed.1⟩
  else if opts.JSON then ⟨0, [Write.Encode pids], [], killed.1⟩
  else ⟨0, [Write.Println (strings_Join pids [' '])], [], killed.1⟩

/-- The slice `pids` as it reaches the kill block, from the enumerator's
result: `none` when `main` exits with code 1 because nothing is left, or when
`pids[:1]` fails. -/
def surviving (opts : Options) (self : Int) (pids : List Str) : Option (List Str) :=
  let pids := ignoreSelf opts self (numericFilter opts pids)
  if pids.length = 0 then none
  else
    let pids := sort_Strings pids
    if opts.Single then sliceTo1 pids else some pids

/-- The function `main`: `opts`, `args` and `parseErr` are what
`parser.Parse()` leaves (the options, the positional arguments, the error),
`FindPIDs` is the platform's enumerator, `self` is `os.Getpid()` and `routed`
tells which signals, other than the one sent to `self`, the operating system
delivers to the program itself.  A Go run-time error ends the program with exit
code 2 and a message on standard error. -/
def main (opts : Options) (args : List Str) (parseErr : Option Str)
    (FindPIDs : Str → Bool → Except Str (List Str)) (self : Int) (routed : Int → Bool) :
    Outcome :=
  if parseErr.isSome then ⟨2, [], [], []⟩
  else
    match args with
    | [target] =>
      match FindPIDs target opts.Exact with
      | Except.error err => ⟨1, [], ["error: ".toList ++ err ++ ['\n']], []⟩
      | Except.ok pids =>
        let pids := ignoreSelf opts self (numericFilter opts pids)
        if pids.length = 0 then ⟨1, [], [], []⟩
        else
          let pids := sort_Strings pids
          if opts.Single then
            match sliceTo1 pids with
            | none => ⟨2, [], ["panic: runtime error: slice bounds out of range".toList], []⟩
            | some pids => emit opts self routed pids
          else emit opts self routed pids
    | _ => ⟨2, [Write.Println "Usage: pidof [OPTIONS] <process-name>".toList], [], []⟩

/-! ## Specification-side definitions -/

/-- A name wrapped in brackets, as the kernel-thread test of the Linux
enumerator reads it. -/
def bracketed (comm : Str) : Bool := HasPrefix comm ['['] && HasSuffix comm [']']

/-- Some field of `parts` has base name `target`. -/
def anyBase (target : Str) (parts : List Str) : Bool :=
  parts.any (fun a => decide (Base a = target))

namespace linux

/-- The command name of entry `pid`: the trimmed contents of its `comm` file,
`none` when the file cannot be read. -/
def commOf (fs : ProcFS) (pid : Str) : Option Str :=
  (fs.ReadFile (Join "/proc".toList pid "comm".toList)).map TrimSpace

/-- The argument scan of entry `pid`: its `cmdline` file can be read, is not
empty, and one of its null-separated fields has base name `target`. -/
def argScan (fs : ProcFS) (target pid : Str) : Bool :=
  match fs.ReadFile (Join "/proc".toList pid "cmdline".toList) with
  | none => false
  | some cmdline => decide (cmdline.length > 0) && anyBase target (Split cmdline NUL)

/-- The match rule of the Linux enumerator for one directory entry. -/
def selects (fs : ProcFS) (target : Str) (exact : Bool) (pid : Str) : Bool :=
  (Atoi pid).2.isNone &&
    match commOf fs pid with
    | none => false
    | some comm => !bracketed comm && (decide (comm = target) || (exact && argScan fs target pid))

end linux

namespace darwin

/-- The fields of the argument buffer of process `pid`: `none` when the buffer
cannot be read or is shorter than four bytes. -/
def partsOf (k : Kernel) (pid : Int) : Option (List Str) :=
  match k.SysctlRaw pid with
  | none => none
  | some raw => if raw.length < 4 then none else some (Split (raw.drop 4) NUL)

/-- The match rule of the Darwin enumerator for one process record. -/
def selects (k : Kernel) (target : Str) (exact : Bool) (kp : KinfoProc) : Bool :=
  decide (0 < kp.P_pid) &&
    match partsOf k kp.P_pid with
    | some (part0 :: rest) => decide (Base part0 = target) || (exact && anyBase target rest)
    | _ => false

end darwin

/-- The bound test of the range filter as the specification writes it:
`(minPID <= 0 or n >= minPID) and (maxPID <= 0 or n <= maxPID)` for the numeric
value `n` of the identifier. -/
def inRange (opts : Options) (p : Str) : Prop :=
  (opts.MinPID ≤ 0 ∨ (Atoi p).1 ≥ opts.MinPID) ∧ (opts.MaxPID ≤ 0 ∨ (Atoi p).1 ≤ opts.MaxPID)

instance (opts : Options) (p : Str) : Decidable (inRange opts p) := by
  unfold inRange
  exact inferInstance

/-- The identifiers left after range filtering and self-exclusion. -/
def filteredPids (opts : Options) (self : Int) (pids : List Str) : List Str :=
  ignoreSelf opts self (numericFilter opts pids)

/-- The kill option is on and the signal sent to some identifier of the final
slice `out` is delivered to the program itself. -/
def selfSignalled (opts : Options) (self : Int) (routed : Int → Bool) (out : List Str) : Bool :=
  opts.Kill && out.any (fun p => hitsSelf self routed (Atoi p).1)

/-- The value of a string of decimal digits read after the value `n`. -/
def digitsValue (n : Nat) (cs : List Char) : Nat :=
  cs.foldl (fun m c => m * 10 + (c.toNat - 48)) n

/-! ## Concrete snapshots -/

/-- A process table with a bracket-named kernel thread (entry 2), a shell
(entry 7), an interpreter running a script (entry 9), a process with an empty
name and no readable argument vector (entry 11) and a non-numeric entry. -/
def demoFS : linux.ProcFS where
  ReadDir := Except.ok ["2".toList, "7".toList, "9".toList, "11".toList, "self".toList]
  ReadFile := fun path =>
    if path = "/proc/11/comm".toList then some "\n".toList
    else if path = "/proc/2/comm".toList then some "[kthreadd]\n".toList
    else if path = "/proc/2/cmdline".toList then some []
    else if path = "/proc/7/comm".toList then some "bash\n".toList
    else if path = "/proc/7/cmdline".toList then some ("bash".toList ++ [NUL])
    else if path = "/proc/9/comm".toList then some "python3\n".toList
    else if path = "/proc/9/cmdline".toList then
      some ("/usr/bin/python3".toList ++ [NUL] ++ "/opt/job.py".toList ++ [NUL])
    else none

/-- A Darwin process table with two processes: 40 runs `/bin/zsh`, 41 runs
`/usr/bin/python3 /opt/job.py`; the record with identifier 0 is skipped. -/
def demoKernel : darwin.Kernel where
  SysctlKinfoProcSlice := Except.ok [⟨0⟩, ⟨40⟩, ⟨41⟩]
  SysctlRaw := fun pid =>
    if pid = 40 then
      some ([Char.ofNat 1, NUL, NUL, NUL] ++ "/bin/zsh".toList ++ [NUL] ++ "zsh".toList ++ [NUL])
    else if pid = 41 then
      some ([Char.ofNat 2, NUL, NUL, NUL] ++ "/usr/bin/python3".toList ++ [NUL] ++
        "python3".toList ++ [NUL] ++ "/opt/job.py".toList ++ [NUL])
    else none

/-- The options with every flag off and no bounds. -/
def noOpts : Options := ⟨false, false, false, false, false, 0, 0⟩

/-- A process table whose one entry is named `+7`, a name `strconv.Atoi`
accepts, and runs `bash`. -/
def signFS : linux.ProcFS where
  ReadDir := Except.ok ["+7".toList]
  ReadFile := fun path =>
    if path = "/proc/+7/comm".toList then some "bash\n".toList else none

/-- A process table with an entry named `0` and an entry named `-3`, both
running `bash`. -/
def zeroFS : linux.ProcFS where
  ReadDir := Except.ok ["0".toList, "-3".toList]
  ReadFile := fun path =>
    if path = "/proc/0/comm".toList then some "bash\n".toList
    else if path = "/proc/-3/comm".toList then some "bash\n".toList
    else none

/-- The contents of a `comm` file for a process named `name`, as the kernel
writes it (proc(5)): the name followed by a newline. -/
def commFileOf (name : Str) : Str := name ++ ['\n']

/-- A process table in which entry 5 is a process whose name is one space. -/
def spaceFS : linux.ProcFS where
  ReadDir := Except.ok ["5".toList]
  ReadFile := fun path =>
    if path = "/proc/5/comm".toList then some (commFileOf [' ']) else none

/-- The process table seen by `pidof -x -k foo` running as process 7: entry 30
is a process named `foo`, entry 7 is the program itself, whose argument vector
holds `foo`. -/
def killFS : linux.ProcFS where
  ReadDir := Except.ok ["30".toList, "7".toList]
  ReadFile := fun path =>
    if path = "/proc/30/comm".toList then some "foo\n".toList
    else if path = "/proc/30/cmdline".toList then some ("foo".toList ++ [NUL])
    else if path = "/proc/7/comm".toList then some "pidof\n".toList
    else if path = "/proc/7/cmdline".toList then
      some ("pidof".toList ++ [NUL] ++ "-x".toList ++ [NUL] ++ "-k".toList ++ [NUL] ++
        "foo".toList ++ [NUL])
    else none

/-- The process table seen by `pidof -s -k pidof` running as process 7, the
only process of that name. -/
def singleFS : linux.ProcFS where
  ReadDir := Except.ok ["1".toList, "7".toList]
  ReadFile := fun path =>
    if path = "/proc/1/comm".toList then some "init\n".toList
    else if path = "/proc/7/comm".toList then some "pidof\n".toList
    else none

/-- The contents of a `cmdline` file for the argument vector `argv`, as the
kernel writes it (proc(5)): each argument followed by a null byte. -/
def cmdlineOf (argv : List Str) : Str :=
  match argv with
  | [] => []
  | a :: rest => a ++ NUL :: cmdlineOf rest

/-- The match rule as the specification words it, for a process with command
name `comm` and argument vector `argv`: the name is not wrapped in brackets, and
it equals the target or, in exact mode, some argument has the target as base
name. -/
def ruleOfSpec (target : Str) (exact : Bool) (comm : Str) (argv : List Str) : Bool :=
  !bracketed comm && (decide (comm = target) || (exact && anyBase target argv))

/-! ## Lemmas on the loops -/

/-- A loop that appends `g x` to the slice for the elements with `p x` builds
the filtered, mapped list. -/
theorem foldl_append_filter_map {α β : Type} (f : List β → α → List β) (p : α → Bool)
    (g : α → β) (h : ∀ acc x, f acc x = acc ++ (if p x then [g x] else []))
    (l : List α) (init : List β) :
    l.foldl f init = init ++ (l.filter p).map g := by
  induction l generalizing init with
  | nil => simp
  | cons x xs ih =>
    rw [List.foldl_cons, ih, h]
    by_cases hp : p x <;> simp [hp]

/-- A loop that appends the elements with `p x` builds the filtered list. -/
theorem foldl_append_filter {α : Type} (f : List α → α → List α) (p : α → Bool)
    (h : ∀ acc x, f acc x = acc ++ (if p x then [x] else []))
    (l : List α) (init : List α) :
    l.foldl f init = init ++ l.filter p := by
  have := foldl_append_filter_map f p id h l init
  simpa using this

/-- The inner loop appends `pid` exactly when some field has base name
`target`. -/
theorem scanArgs_eq (target pid : Str) (parts pids : List Str) :
    scanArgs target pid parts pids = pids ++ (if anyBase target parts then [pid] else []) := by
  induction parts with
  | nil => simp [scanArgs, anyBase]
  | cons a parts ih =>
    unfold scanArgs
    by_cases h : Base a = target
    · simp [h, anyBase]
    · simp only [h, if_false, ih]
      simp [anyBase, h]

/-- The path base name is never the empty string. -/
theorem Base_ne_nil (path : Str) : Base path ≠ [] := by
  unfold Base
  split
  · simp
  · simp only
    split
    · simp
    · assumption

/-- No field has the empty string as base name. -/
theorem anyBase_nil (parts : List Str) : anyBase [] parts = false := by
  simp [anyBase, Base_ne_nil]

/-- One iteration of the Linux loop appends the entry name exactly when the
match rule selects it. -/
theorem linux_loopBody_eq (fs : linux.ProcFS) (target : Str) (exact : Bool)
    (pids : List Str) (pid : Str) :
    linux.loopBody fs target exact pids pid =
      pids ++ (if linux.selects fs target exact pid then [pid] else []) := by
  unfold linux.loopBody linux.selects linux.commOf linux.argScan
  cases hA : (Atoi pid).2 with
  | some e => simp
  | none =>
    cases hC : fs.ReadFile (Join "/proc".toList pid "comm".toList) with
    | none => simp
    | some commBytes =>
      simp only [Option.map_some', Option.isNone_none, Bool.true_and]
      by_cases hb : bracketed (TrimSpace commBytes) = true
      · have hb' := hb
        unfold bracketed at hb'
        simp [hb, hb']
      · have hb' := hb
        unfold bracketed at hb'
        simp only [hb', Bool.false_eq_true, if_false]
        have hbf : bracketed (TrimSpace commBytes) = false := by simpa using hb
        by_cases ht : TrimSpace commBytes = target
        · subst ht
          simp [hbf]
        · cases exact with
          | false => simp [ht]
          | true =>
            cases hL : fs.ReadFile (Join "/proc".toList pid "cmdline".toList) with
            | none => simp [ht]
            | some cmdline =>
              by_cases hlen : cmdline.length > 0
              · simp [ht, hb, hlen, scanArgs_eq]
              · simp [ht, hlen]

/-- The Linux enumerator returns the selected entry names, in listing order. -/
theorem linux_FindPIDs_eq_filter (fs : linux.ProcFS) (target : Str) (exact : Bool)
    (entries : List Str) (h : fs.ReadDir = Except.ok entries) :
    linux.FindPIDs fs target exact =
      Except.ok (entries.filter (linux.selects fs target exact)) := by
  unfold linux.FindPIDs
  rw [h]
  simp only
  rw [foldl_append_filter _ _ (linux_loopBody_eq fs target exact)]
  simp

/-- One iteration of the Darwin loop appends the decimal identifier exactly
when the match rule selects the record. -/
theorem darwin_loopBody_eq (k : darwin.Kernel) (target : Str) (exact : Bool)
    (pids : List Str) (kp : darwin.KinfoProc) :
    darwin.loopBody k target exact pids kp =
      pids ++ (if darwin.selects k target exact kp then [Itoa kp.P_pid] else []) := by
  unfold darwin.loopBody darwin.selects darwin.partsOf
  by_cases hp : kp.P_pid ≤ 0
  · have : ¬ (0 < kp.P_pid) := by omega
    simp [hp, this]
  · have hpos : 0 < kp.P_pid := by omega
    simp only [hp, if_false, hpos, decide_True, Bool.true_and]
    cases hR : k.SysctlRaw kp.P_pid with
    | none => simp
    | some raw =>
      by_cases hlen : raw.length < 4
      · simp [hlen]
      · simp only [hlen, if_false]
        cases hS : Split (raw.drop 4) NUL with
        | nil => simp
        | cons part0 rest =>
          by_cases ht : Base part0 = target
          · simp [ht]
          · cases exact with
            | false => simp [ht]
            | true => simp [ht, scanArgs_eq]

/-- The Darwin enumerator returns the decimal identifiers of the selected
records, in listing order. -/
theorem darwin_FindPIDs_eq_filter (k : darwin.Kernel) (target : Str) (exact : Bool)
    (kprocs : List darwin.KinfoProc) (h : k.SysctlKinfoProcSlice = Except.ok kprocs) :
    darwin.FindPIDs k target exact =
      Except.ok ((kprocs.filter (darwin.selects k target exact)).map
        (fun kp => Itoa kp.P_pid)) := by
  unfold darwin.FindPIDs
  rw [h]
  simp only
  rw [foldl_append_filter_map _ _ _ (darwin_loopBody_eq k target exact)]
  simp

/-- A string has the one-character prefix `c` exactly when its first character
is `c`. -/
theorem HasPrefix_singleton (s : Str) (c : Char) :
    HasPrefix s [c] = true ↔ s.head? = some c := by
  cases s with
  | nil => simp [HasPrefix]
  | cons a t => simp [HasPrefix]

/-- A string has the one-character suffix `c` exactly when its last character
is `c`. -/
theorem HasSuffix_singleton (s : Str) (c : Char) :
    HasSuffix s [c] = true ↔ s.getLast? = some c := by
  rcases List.eq_nil_or_concat s with h | ⟨l, x, h⟩
  · subst h
    simp [HasSuffix]
  · subst h
    simp [HasSuffix]

/-- The bracket test holds exactly for the names that start with `[` and end
with `]`. -/
theorem bracketed_iff (comm : Str) :
    bracketed comm = true ↔ comm.head? = some '[' ∧ comm.getLast? = some ']' := by
  unfold bracketed
  rw [Bool.and_eq_true, HasPrefix_singleton, HasSuffix_singleton]

/-- Filtering by a weaker test keeps at least the same elements, in order. -/
theorem filter_sublist_of_imp {α : Type} (p q : α → Bool) (h : ∀ x, p x = true → q x = true)
    (l : List α) : (l.filter p).Sublist (l.filter q) := by
  induction l with
  | nil => simp
  | cons x xs ih =>
    by_cases hp : p x = true
    · have hq := h x hp
      simp only [List.filter_cons, hp, hq, if_true]
      exact ih.cons₂ x
    · by_cases hq : q x = true
      · simp only [List.filter_cons, hp, hq, if_true, if_false]
        exact ih.cons x
      · simp only [List.filter_cons, hp, hq, if_false]
        exact ih

/-- What the Linux rule selects without the argument scan it selects with it. -/
theorem linux_selects_mono (fs : linux.ProcFS) (target pid : Str)
    (h : linux.selects fs target false pid = true) : linux.selects fs target true pid = true := by
  unfold linux.selects at h ⊢
  cases hC : linux.commOf fs pid with
  | none => simp [hC] at h
  | some comm =>
    simp only [hC, Bool.and_eq_true, Bool.not_eq_true', Bool.or_eq_true,
      decide_eq_true_eq, Bool.false_and, Bool.false_eq_true, or_false] at h
    obtain ⟨h1, h2, h3⟩ := h
    subst h3
    simp [hC, h1, h2]

/-- What the Darwin rule selects without the argument scan it selects with it. -/
theorem darwin_selects_mono (k : darwin.Kernel) (target : Str) (kp : darwin.KinfoProc)
    (h : darwin.selects k target false kp = true) : darwin.selects k target true kp = true := by
  unfold darwin.selects at h ⊢
  rcases hP : darwin.partsOf k kp.P_pid with _ | (_ | ⟨part0, rest⟩) <;> simp_all

/-- A selected Linux entry has a readable command name that is not wrapped in
brackets. -/
theorem linux_selects_comm (fs : linux.ProcFS) (target pid : Str) (exact : Bool)
    (h : linux.selects fs target exact pid = true) :
    ∃ comm, linux.commOf fs pid = some comm ∧ bracketed comm = false ∧
      (comm = target ∨ (exact = true ∧ linux.argScan fs target pid = true)) := by
  unfold linux.selects at h
  cases hC : linux.commOf fs pid with
  | none => simp [hC] at h
  | some comm =>
    simp only [hC, Bool.and_eq_true, Bool.not_eq_true', Bool.or_eq_true,
      decide_eq_true_eq] at h
    exact ⟨comm, rfl, h.2.1, h.2.2⟩

/-! ## Lemmas on `main` -/

/-- The numeric filtering loop keeps exactly the identifiers within the bounds,
in order. -/
theorem numericFilter_eq (opts : Options) (pids : List Str) :
    numericFilter opts pids = pids.filter (fun p => decide (inRange opts p)) := by
  unfold numericFilter
  rw [foldl_append_filter (filterBody opts) (fun p => decide (inRange opts p))]
  · simp
  · intro acc p
    unfold filterBody inRange
    by_cases h1 : opts.MinPID > 0 ∧ (Atoi p).1 < opts.MinPID
    · have : ¬ (opts.MinPID ≤ 0 ∨ (Atoi p).1 ≥ opts.MinPID) := by omega
      simp [h1, this]
    · by_cases h2 : opts.MaxPID > 0 ∧ (Atoi p).1 > opts.MaxPID
      · have : ¬ (opts.MaxPID ≤ 0 ∨ (Atoi p).1 ≤ opts.MaxPID) := by omega
        simp only [h1, h2, if_false, if_true]
        simp [this]
      · have a1 : opts.MinPID ≤ 0 ∨ (Atoi p).1 ≥ opts.MinPID := by omega
        have a2 : opts.MaxPID ≤ 0 ∨ (Atoi p).1 ≤ opts.MaxPID := by omega
        simp only [h1, h2, if_false]
        simp [a1, a2]

/-- The self-exclusion loop drops exactly the identifiers equal to the decimal
form of `self`. -/
theorem ignoreSelf_eq (opts : Options) (self : Int) (pids : List Str) :
    ignoreSelf opts self pids =
      if opts.IgnoreSelf then pids.filter (fun p => decide (p ≠ Itoa self)) else pids := by
  unfold ignoreSelf
  by_cases h : opts.IgnoreSelf = true
  · simp only [h, if_true]
    rw [foldl_append_filter (ignoreSelfBody self) (fun p => decide (p ≠ Itoa self))]
    · simp
    · intro acc p
      unfold ignoreSelfBody
      by_cases hp : Itoa self = p
      · simp [hp]
      · have : ¬ p = Itoa self := fun h => hp h.symm
        simp [hp, this]
  · simp [h]

/-- Each filtered identifier is one of the enumerator's and is within the
bounds. -/
theorem mem_filteredPids (opts : Options) (self : Int) (pids : List Str) (p : Str)
    (h : p ∈ filteredPids opts self pids) : p ∈ pids ∧ inRange opts p := by
  unfold filteredPids at h
  rw [ignoreSelf_eq, numericFilter_eq] at h
  by_cases hi : opts.IgnoreSelf = true
  · simp only [hi, if_true] at h
    have := (List.mem_filter.mp (List.mem_filter.mp h).1)
    exact ⟨this.1, by simpa using this.2⟩
  · simp only [hi] at h
    have := List.mem_filter.mp h
    exact ⟨this.1, by simpa using this.2⟩

/-- Insertion adds the one element. -/
theorem sortInsert_perm (a : Str) (l : List Str) : (sortInsert a l).Perm (a :: l) := by
  induction l with
  | nil => simp [sortInsert]
  | cons b l ih =>
    unfold sortInsert
    by_cases h : strLess b a = true
    · simp only [h, if_true]
      exact (List.Perm.cons b ih).trans (List.Perm.swap a b l)
    · simp [h]

/-- Sorting permutes the slice. -/
theorem sort_Strings_perm (l : List Str) : (sort_Strings l).Perm l := by
  induction l with
  | nil => simp [sort_Strings]
  | cons a l ih =>
    unfold sort_Strings
    exact (sortInsert_perm a _).trans (List.Perm.cons a ih)

/-- No string is less than itself or than a string less than it. -/
theorem strLess_asymm (a b : Str) (h : strLess a b = true) : strLess b a = false := by
  induction a generalizing b with
  | nil => cases b <;> simp [strLess] at h ⊢
  | cons x xs ih =>
    cases b with
    | nil => simp [strLess] at h
    | cons y ys =>
      simp only [strLess, Bool.or_eq_true, Bool.and_eq_true, decide_eq_true_eq] at h
      simp only [strLess, Bool.or_eq_false_iff, Bool.and_eq_false_imp, decide_eq_false_iff_not,
        decide_eq_true_eq]
      rcases h with h | ⟨h1, h2⟩
      · exact ⟨by omega, fun h' => by omega⟩
      · exact ⟨by omega, fun _ => ih ys h2⟩

/-- The order "not greater" is transitive. -/
theorem strLess_false_trans (a b c : Str) (hab : strLess b a = false)
    (hbc : strLess c b = false) : strLess c a = false := by
  induction a generalizing b c with
  | nil => cases c <;> simp [strLess]
  | cons x xs ih =>
    cases b with
    | nil => simp [strLess] at hab
    | cons y ys =>
      cases c with
      | nil => simp [strLess] at hbc
      | cons z zs =>
        simp only [strLess, Bool.or_eq_false_iff, Bool.and_eq_false_imp, decide_eq_false_iff_not,
          decide_eq_true_eq] at hab hbc ⊢
        refine ⟨by omega, fun hzx => ?_⟩
        have hyx : y.toNat = x.toNat := by omega
        have hzy : z.toNat = y.toNat := by omega
        exact ih ys zs (hab.2 hyx) (hbc.2 hzy)

/-- Insertion into a sorted slice leaves it sorted. -/
theorem sortInsert_sorted (a : Str) (l : List Str)
    (h : l.Pairwise (fun x y => strLess y x = false)) :
    (sortInsert a l).Pairwise (fun x y => strLess y x = false) := by
  induction l with
  | nil => simp [sortInsert]
  | cons b l ih =>
    unfold sortInsert
    have hb := List.pairwise_cons.mp h
    by_cases hlt : strLess b a = true
    · simp only [hlt, if_true]
      refine List.pairwise_cons.mpr ⟨?_, ih hb.2⟩
      intro y hy
      rcases List.mem_cons.mp ((sortInsert_perm a l).subset hy) with rfl | hy'
      · exact strLess_asymm b y hlt
      · exact hb.1 y hy'
    · have hge : strLess b a = false := by simpa using hlt
      simp only [hge, Bool.false_eq_true, if_false]
      refine List.pairwise_cons.mpr ⟨?_, h⟩
      intro y hy
      rcases List.mem_cons.mp hy with rfl | hy'
      · exact hge
      · exact strLess_false_trans a b y hge (hb.1 y hy')

/-- The sorted slice is in increasing order: no element is greater than a later
one. -/
theorem sort_Strings_sorted (l : List Str) :
    (sort_Strings l).Pairwise (fun x y => strLess y x = false) := by
  induction l with
  | nil => simp [sort_Strings]
  | cons a l ih =>
    unfold sort_Strings
    exact sortInsert_sorted a _ ih

/-- No string is less than itself. -/
theorem strLess_irrefl (a : Str) : strLess a a = false := by
  induction a with
  | nil => rfl
  | cons x xs ih => simp [strLess, ih]

/-- The first element of the sorted slice is a least element of the slice. -/
theorem sort_Strings_head_min (l : List Str) (m : Str) (rest : List Str)
    (h : sort_Strings l = m :: rest) : m ∈ l ∧ ∀ p ∈ l, strLess p m = false := by
  have hperm := sort_Strings_perm l
  have hsorted := sort_Strings_sorted l
  rw [h] at hperm hsorted
  refine ⟨hperm.subset (List.mem_cons_self m rest), fun p hp => ?_⟩
  rcases List.mem_cons.mp (hperm.symm.subset hp) with rfl | hp'
  · exact strLess_irrefl p
  · exact (List.pairwise_cons.mp hsorted).1 p hp'

/-- Sorting a slice with elements gives a slice with elements. -/
theorem sort_Strings_ne_nil (l : List Str) (h : l ≠ []) : sort_Strings l ≠ [] := by
  intro hs
  have := (sort_Strings_perm l).length_eq
  rw [hs] at this
  exact h (List.length_eq_zero.mp this.symm)

/-- The slice that reaches the kill block: nothing when the filtered slice is
empty, else the sorted filtered slice, cut to its first element in single-result
mode. -/
theorem surviving_eq (opts : Options) (self : Int) (pids : List Str) :
    surviving opts self pids =
      if filteredPids opts self pids = [] then none
      else if opts.Single then some ((sort_Strings (filteredPids opts self pids)).take 1)
      else some (sort_Strings (filteredPids opts self pids)) := by
  unfold surviving filteredPids
  by_cases h : ignoreSelf opts self (numericFilter opts pids) = []
  · simp [h]
  · have hlen : ¬ (ignoreSelf opts self (numericFilter opts pids)).length = 0 := by
      simpa using h
    simp only [hlen, h, if_false]
    cases hs : sort_Strings (ignoreSelf opts self (numericFilter opts pids)) with
    | nil => exact absurd hs (sort_Strings_ne_nil _ h)
    | cons m rest => simp [sliceTo1]

/-- A run of `main` whose arguments parse, with one positional argument and a
successful enumeration: exit code 1 without output when nothing survives, else
the kill and print blocks on the surviving slice.  The slice expression
`pids[:1]` is never evaluated on an empty slice. -/
theorem main_ok (opts : Options) (target : Str) (F : Str → Bool → Except Str (List Str))
    (self : Int) (routed : Int → Bool) (pids : List Str)
    (h : F target opts.Exact = Except.ok pids) :
    main opts [target] none F self routed =
      match surviving opts self pids with
      | none => ⟨1, [], [], []⟩
      | some out => emit opts self routed out := by
  unfold main surviving
  simp only [Option.isSome_none, Bool.false_eq_true, if_false, h]
  by_cases hlen : (ignoreSelf opts self (numericFilter opts pids)).length = 0
  · simp [hlen]
  · simp only [hlen, if_false]
    have hne : ignoreSelf opts self (numericFilter opts pids) ≠ [] := by
      simpa using hlen
    cases hS : opts.Single with
    | false => simp
    | true =>
      cases hs : sort_Strings (ignoreSelf opts self (numericFilter opts pids)) with
      | nil => exact absurd hs (sort_Strings_ne_nil _ hne)
      | cons m rest => simp [sliceTo1]

/-- A run whose option parsing fails: exit code 2, nothing written by `main`. -/
theorem main_parse_error (opts : Options) (args : List Str) (parseErr : Option Str)
    (F : Str → Bool → Except Str (List Str)) (self : Int) (routed : Int → Bool)
    (h : parseErr.isSome = true) :
    main opts args parseErr F self routed = ⟨2, [], [], []⟩ := by
  unfold main
  simp [h]

/-- A run with a number of positional arguments other than one: the usage line
and exit code 2. -/
theorem main_usage (opts : Options) (args : List Str)
    (F : Str → Bool → Except Str (List Str)) (self : Int) (routed : Int → Bool)
    (h : args.length ≠ 1) :
    main opts args none F self routed =
      ⟨2, [Write.Println "Usage: pidof [OPTIONS] <process-name>".toList], [], []⟩ := by
  unfold main
  rcases args with _ | ⟨a, _ | ⟨b, rest⟩⟩
  · simp
  · simp at h
  · simp

/-- A run whose enumeration fails: the error on standard error, exit code 1. -/
theorem main_enum_error (opts : Options) (target : Str)
    (F : Str → Bool → Except Str (List Str)) (self : Int) (routed : Int → Bool) (err : Str)
    (h : F target opts.Exact = Except.error err) :
    main opts [target] none F self routed =
      ⟨1, [], ["error: ".toList ++ err ++ ['\n']], []⟩ := by
  unfold main
  simp [h]

/-- The surviving identifiers are filtered identifiers. -/
theorem mem_surviving (opts : Options) (self : Int) (pids out : List Str)
    (h : surviving opts self pids = some out) (p : Str) (hp : p ∈ out) :
    p ∈ filteredPids opts self pids := by
  rw [surviving_eq] at h
  by_cases hn : filteredPids opts self pids = []
  · simp [hn] at h
  · simp only [hn, if_false] at h
    by_cases hS : opts.Single = true
    · simp only [hS, if_true, Option.some.injEq] at h
      subst h
      exact (sort_Strings_perm _).subset (List.mem_of_mem_take hp)
    · simp only [hS, Bool.false_eq_true, if_false, Option.some.injEq] at h
      subst h
      exact (sort_Strings_perm _).subset hp

/-- The kill loop ends the program exactly when the signal sent to some
identifier is delivered to the program itself. -/
theorem killLoop_ended (self : Int) (routed : Int → Bool) (pids : List Str) :
    (killLoop self routed pids).2 = pids.any (fun p => hitsSelf self routed (Atoi p).1) := by
  induction pids with
  | nil => simp [killLoop]
  | cons p rest ih =>
    unfold killLoop
    by_cases h : hitsSelf self routed (Atoi p).1 = true
    · simp [h]
    · simp only [h, Bool.false_eq_true, if_false, ih]
      simp [h]

/-- When no signal is delivered to the program itself, the kill loop calls
`proc.Signal(os.Interrupt)` once for each identifier, in order. -/
theorem killLoop_calls (self : Int) (routed : Int → Bool) (pids : List Str)
    (h : pids.any (fun p => hitsSelf self routed (Atoi p).1) = false) :
    (killLoop self routed pids).1 = pids.map (fun p => ((Atoi p).1, os_Interrupt)) := by
  induction pids with
  | nil => simp [killLoop]
  | cons p rest ih =>
    simp only [List.any_cons, Bool.or_eq_false_iff] at h
    unfold killLoop
    simp only [h.1, Bool.false_eq_true, if_false, List.map_cons]
    rw [ih h.2]

/-- The calls the kill loop makes are the first of the calls for all the
identifiers: the loop stops at the call that ends the program. -/
theorem killLoop_prefix (self : Int) (routed : Int → Bool) (pids : List Str) :
    (killLoop self routed pids).1 <+: pids.map (fun p => ((Atoi p).1, os_Interrupt)) := by
  induction pids with
  | nil => simp [killLoop]
  | cons p rest ih =>
    unfold killLoop
    by_cases h : hitsSelf self routed (Atoi p).1 = true
    · simp only [h, if_true, List.map_cons]
      exact ⟨_, rfl⟩
    · simp only [h, Bool.false_eq_true, if_false, List.map_cons]
      exact (List.prefix_cons_inj _).mpr ih

/-- When the kill option sends a signal that is delivered to the program
itself, the program is ended by it: nothing is printed and the exit status is
that of a process ended by `os.Interrupt`. -/
theorem emit_ended (opts : Options) (self : Int) (routed : Int → Bool) (out : List Str)
    (h : selfSignalled opts self routed out = true) :
    emit opts self routed out = ⟨128 + os_Interrupt, [], [], (killLoop self routed out).1⟩ := by
  unfold selfSignalled at h
  simp only [Bool.and_eq_true] at h
  unfold emit
  simp [h.1, killLoop_ended, h.2]

/-- When no signal is delivered to the program itself, the final slice is
printed once, as a JSON array or as one line, the exit code is 0 and, with the
kill option on, `proc.Signal(os.Interrupt)` was called once for each identifier,
in order. -/
theorem emit_printed (opts : Options) (self : Int) (routed : Int → Bool) (out : List Str)
    (h : selfSignalled opts self routed out = false) :
    emit opts self routed out =
      ⟨0, [if opts.JSON then Write.Encode out else Write.Println (strings_Join out [' '])], [],
        if opts.Kill then out.map (fun p => ((Atoi p).1, os_Interrupt)) else []⟩ := by
  unfold selfSignalled at h
  unfold emit
  cases hK : opts.Kill with
  | false => cases opts.JSON <;> simp
  | true =>
    rw [hK] at h
    simp only [Bool.true_and] at h
    have h2 := killLoop_ended self routed out
    rw [h] at h2
    simp only [if_true, h2, Bool.false_eq_true, if_false, killLoop_calls self routed out h]
    cases opts.JSON <;> simp

/-- The kill and print blocks write nothing to standard error, and they end
with exit code 0 exactly when no signal was delivered to the program itself; the
slice is then printed. -/
theorem emit_stdout (opts : Options) (self : Int) (routed : Int → Bool) (out : List Str) :
    (emit opts self routed out).stderr = [] ∧
    ((emit opts self routed out).exitCode = 0 ↔ selfSignalled opts self routed out = false) ∧
    ((emit opts self routed out).exitCode = 0 →
      (emit opts self routed out).stdout =
        [if opts.JSON then Write.Encode out else Write.Println (strings_Join out [' '])]) ∧
    (emit opts self routed out).exitCode ≠ 1 ∧ (emit opts self routed out).exitCode ≠ 2 := by
  cases h : selfSignalled opts self routed out with
  | true =>
    rw [emit_ended opts self routed out h]
    simp [os_Interrupt, SIGINT]
  | false =>
    rw [emit_printed opts self routed out h]
    simp

/-- A run that exits with code 0 printed a surviving slice of some successful
enumeration. -/
theorem main_exit_zero (opts : Options) (args : List Str) (parseErr : Option Str)
    (F : Str → Bool → Except Str (List Str)) (self : Int) (routed : Int → Bool)
    (h : (main opts args parseErr F self routed).exitCode = 0) :
    ∃ target pids out, args = [target] ∧ parseErr = none ∧
      F target opts.Exact = Except.ok pids ∧ surviving opts self pids = some out ∧
      main opts args parseErr F self routed = emit opts self routed out := by
  cases hp : parseErr with
  | some e =>
    rw [hp, main_parse_error opts args (some e) F self routed rfl] at h
    simp at h
  | none =>
    rw [hp] at h
    by_cases hl : args.length = 1
    · obtain ⟨target, rfl⟩ := List.length_eq_one.mp hl
      cases hF : F target opts.Exact with
      | error err =>
        rw [main_enum_error opts target F self routed err hF] at h
        simp at h
      | ok pids =>
        rw [main_ok opts target F self routed pids hF] at h ⊢
        cases hs : surviving opts self pids with
        | none => simp [hs] at h
        | some out => exact ⟨target, pids, out, rfl, rfl, hF, hs, rfl⟩
    · rw [main_usage opts args F self routed hl] at h
      simp at h

/-- When no signal is delivered to the program itself, the kill block calls
`proc.Signal(os.Interrupt)` for the numeric value of each surviving identifier,
in order, and the printed result and the exit code are those of the run
without the kill option. -/
theorem emit_signals (opts : Options) (self : Int) (routed : Int → Bool) (out : List Str)
    (h : out.any (fun p => hitsSelf self routed (Atoi p).1) = false) :
    (emit { opts with Kill := true } self routed out).signals =
      out.map (fun p => ((Atoi p).1, os_Interrupt)) ∧
    (emit { opts with Kill := false } self routed out).signals = [] ∧
    (emit { opts with Kill := true } self routed out).stdout =
      (emit { opts with Kill := false } self routed out).stdout ∧
    (emit { opts with Kill := true } self routed out).exitCode =
      (emit { opts with Kill := false } self routed out).exitCode := by
  have h1 : selfSignalled { opts with Kill := true } self routed out = false := by
    simp [selfSignalled, h]
  have h2 : selfSignalled { opts with Kill := false } self routed out = false := by
    simp [selfSignalled]
  rw [emit_printed _ self routed out h1, emit_printed _ self routed out h2]
  simp

/-- The surviving slice is empty only through the exit with code 1: it is
`none` exactly when the filtered slice is empty. -/
theorem surviving_eq_none (opts : Options) (self : Int) (pids : List Str) :
    surviving opts self pids = none ↔ filteredPids opts self pids = [] := by
  rw [surviving_eq]
  by_cases hn : filteredPids opts self pids = []
  · simp [hn]
  · cases opts.Single <;> simp [hn]

/-! ## Lemmas on the argument vector -/

/-- Splitting never gives the empty list of fields. -/
theorem Split_ne_nil (s : Str) (sep : Char) : Split s sep ≠ [] := by
  induction s with
  | nil => simp [Split]
  | cons c cs ih =>
    unfold Split
    by_cases h : c = sep
    · simp [h]
    · simp only [h, if_false]
      cases hs : Split cs sep with
      | nil => exact absurd hs ih
      | cons x t => simp

/-- Splitting an argument without separator followed by a separator and more
text gives the argument and then the fields of the rest. -/
theorem Split_append (a rest : Str) (sep : Char) (h : sep ∉ a) :
    Split (a ++ sep :: rest) sep = a :: Split rest sep := by
  induction a with
  | nil => simp [Split]
  | cons c cs ih =>
    have hc : c ≠ sep := fun e => h (by simp [e])
    have hcs : sep ∉ cs := fun e => h (List.mem_cons_of_mem c e)
    rw [List.cons_append, Split]
    simp only [hc, if_false]
    rw [ih hcs]

/-- The fields of a `cmdline` file are the arguments followed by one empty
field. -/
theorem Split_cmdlineOf (argv : List Str) (h : ∀ a ∈ argv, NUL ∉ a) :
    Split (cmdlineOf argv) NUL = argv ++ [[]] := by
  induction argv with
  | nil => simp [cmdlineOf, Split]
  | cons a rest ih =>
    rw [cmdlineOf, Split_append a _ NUL (h a (List.mem_cons_self a rest)),
      ih (fun b hb => h b (List.mem_cons_of_mem a hb))]
    simp

/-- The argument scan on the `cmdline` file of an argument vector: it succeeds
when the vector is not empty and either some argument has the target as base
name or the target is `.`, the base name of the empty field that follows the
last null byte. -/
theorem linux_argScan_cmdlineOf (fs : linux.ProcFS) (target pid : Str) (argv : List Str)
    (hfile : fs.ReadFile (Join "/proc".toList pid "cmdline".toList) = some (cmdlineOf argv))
    (hnul : ∀ a ∈ argv, NUL ∉ a) :
    linux.argScan fs target pid =
      (decide (argv ≠ []) && (anyBase target argv || decide (target = ['.']))) := by
  unfold linux.argScan
  rw [hfile]
  simp only
  rw [Split_cmdlineOf argv hnul]
  cases argv with
  | nil => simp [cmdlineOf]
  | cons a rest =>
    have hlen : (cmdlineOf (a :: rest)).length > 0 := by simp [cmdlineOf]
    have hb : Base [] = ['.'] := by rfl
    simp only [hlen, decide_True, Bool.true_and, ne_eq, reduceCtorEq, not_false_eq_true]
    unfold anyBase
    rw [List.any_append]
    simp [hb, eq_comm]

/-- The Linux enumerator on a process table whose `cmdline` files hold argument
vectors: for a target other than `.` it returns, in listing order, exactly the
numeric entries that the rule of the specification selects. -/
theorem linux_FindPIDs_of_argv (fs : linux.ProcFS) (target : Str) (exact : Bool)
    (entries : List Str) (comm : Str → Str) (argv : Str → List Str)
    (hdir : fs.ReadDir = Except.ok entries)
    (hcomm : ∀ pid ∈ entries, linux.commOf fs pid = some (comm pid))
    (hfile : ∀ pid ∈ entries,
      fs.ReadFile (Join "/proc".toList pid "cmdline".toList) = some (cmdlineOf (argv pid)))
    (hnul : ∀ pid ∈ entries, ∀ a ∈ argv pid, NUL ∉ a)
    (hdot : target ≠ ['.']) :
    linux.FindPIDs fs target exact =
      Except.ok (entries.filter (fun pid =>
        (Atoi pid).2.isNone && ruleOfSpec target exact (comm pid) (argv pid))) := by
  rw [linux_FindPIDs_eq_filter fs target exact entries hdir]
  congr 1
  apply List.filter_congr
  intro pid hmem
  unfold linux.selects ruleOfSpec
  rw [hcomm pid hmem, linux_argScan_cmdlineOf fs target pid (argv pid) (hfile pid hmem)
    (hnul pid hmem)]
  cases hargv : argv pid with
  | nil => simp [anyBase]
  | cons a rest => simp [hdot]

/-- Every identifier the Linux enumerator returns is a directory entry that
`strconv.Atoi` parses without error. -/
theorem linux_FindPIDs_parses (fs : linux.ProcFS) (target : Str) (exact : Bool)
    (pids : List Str) (h : linux.FindPIDs fs target exact = Except.ok pids) :
    ∀ pid ∈ pids, (Atoi pid).2 = none ∧ ∃ entries, fs.ReadDir = Except.ok entries ∧ pid ∈ entries := by
  intro pid hmem
  cases hd : fs.ReadDir with
  | error err => simp [linux.FindPIDs, hd] at h
  | ok entries =>
    rw [linux_FindPIDs_eq_filter fs target exact entries hd] at h
    injection h with h'
    subst h'
    have hm := List.mem_filter.mp hmem
    refine ⟨?_, entries, rfl, hm.1⟩
    have hs := hm.2
    unfold linux.selects at hs
    simp only [Bool.and_eq_true] at hs
    simpa using hs.1

/-! ## Lemmas on strconv -/

/-- The character written for the digit `k` is a decimal digit with value `k`. -/
theorem digitChar_spec : ∀ k, k < 10 →
    isDigit (Char.ofNat (48 + k)) = true ∧ (Char.ofNat (48 + k)).toNat = 48 + k := by
  decide

/-- Reading more digits does not decrease the value. -/
theorem le_digitsValue (cs : List Char) (n : Nat) : n ≤ digitsValue n cs := by
  induction cs generalizing n with
  | nil => simp [digitsValue]
  | cons c cs ih =>
    have := ih (n * 10 + (c.toNat - 48))
    simp only [digitsValue, List.foldl_cons] at this ⊢
    omega

/-- On a string of decimal digits whose value fits in 64 bits the digit loop
returns that value, without error. -/
theorem parseUintLoop_digits (cs : List Char) (n : Nat)
    (hd : ∀ c ∈ cs, isDigit c = true) (hv : digitsValue n cs ≤ maxUint64) :
    parseUintLoop cs n = (digitsValue n cs, none) := by
  induction cs generalizing n with
  | nil => simp [parseUintLoop, digitsValue]
  | cons c cs ih =>
    have hc := hd c (List.mem_cons_self c cs)
    have hstep : digitsValue n (c :: cs) = digitsValue (n * 10 + (c.toNat - 48)) cs := by
      simp [digitsValue]
    rw [hstep] at hv ⊢
    have hle := le_digitsValue cs (n * 10 + (c.toNat - 48))
    have hmax : maxUint64 = 18446744073709551615 := by decide
    have hbound : n * 10 + (c.toNat - 48) ≤ 18446744073709551615 := by omega
    unfold parseUintLoop
    simp only [hc, if_true]
    have h1 : ¬ (n ≥ maxUint64 / 10 + 1) := by
      rw [hmax]
      omega
    have h2 : (n * 10 + (c.toNat - 48)) % 2 ^ 64 = n * 10 + (c.toNat - 48) := by
      apply Nat.mod_eq_of_lt
      have : (2:Nat) ^ 64 = 18446744073709551616 := by norm_num
      omega
    simp only [h1, if_false, h2]
    have h3 : ¬ (n * 10 + (c.toNat - 48) < n * 10 ∨ n * 10 + (c.toNat - 48) > maxUint64) := by
      rw [hmax]
      omega
    simp only [h3, if_false]
    exact ih _ (fun c' hc' => hd c' (List.mem_cons_of_mem c hc')) hv

/-- The digits written for `u`, followed by `acc`, read back as `u` followed by
`acc`. -/
theorem formatBits_value (fuel u : Nat) (acc : List Char) (h : u < fuel) :
    digitsValue 0 (formatBits fuel u acc) = digitsValue u acc := by
  induction fuel generalizing u acc with
  | zero => omega
  | succ fuel ih =>
    unfold formatBits
    by_cases hu : u ≥ 10
    · simp only [hu, if_true]
      rw [ih (u / 10) _ (by omega)]
      have := (digitChar_spec (u % 10) (Nat.mod_lt u (by norm_num))).2
      simp only [digitsValue, List.foldl_cons, this]
      congr 1
      omega
    · simp only [hu, if_false]
      have := (digitChar_spec u (by omega)).2
      simp only [digitsValue, List.foldl_cons, this]
      congr 1
      omega

/-- Formatting writes decimal digits only. -/
theorem formatBits_digits (fuel u : Nat) (acc : List Char)
    (hacc : ∀ c ∈ acc, isDigit c = true) : ∀ c ∈ formatBits fuel u acc, isDigit c = true := by
  induction fuel generalizing u acc with
  | zero => simpa [formatBits] using hacc
  | succ fuel ih =>
    unfold formatBits
    by_cases hu : u ≥ 10
    · simp only [hu, if_true]
      apply ih
      intro c hc
      rcases List.mem_cons.mp hc with rfl | hc'
      · exact (digitChar_spec (u % 10) (Nat.mod_lt u (by norm_num))).1
      · exact hacc c hc'
    · simp only [hu, if_false]
      intro c hc
      rcases List.mem_cons.mp hc with rfl | hc'
      · exact (digitChar_spec u (by omega)).1
      · exact hacc c hc'

/-- Formatting writes at least one character. -/
theorem formatBits_ne_nil (fuel u : Nat) (acc : List Char) (h : acc ≠ [] ∨ 0 < fuel) :
    formatBits fuel u acc ≠ [] := by
  induction fuel generalizing u acc with
  | zero =>
    rcases h with h | h
    · simpa [formatBits] using h
    · omega
  | succ fuel ih =>
    unfold formatBits
    by_cases hu : u ≥ 10
    · simp only [hu, if_true]
      exact ih _ _ (Or.inl (by simp))
    · simp [hu]

/-- Decimal formatting followed by parsing gives the number back, without
error, for every non-negative `int`. -/
theorem Atoi_Itoa (n : Int) (h0 : 0 ≤ n) (h : n < 2 ^ 63) : Atoi (Itoa n) = (n, none) := by
  obtain ⟨k, rfl⟩ := Int.eq_ofNat_of_zero_le h0
  have hk : k < 2 ^ 63 := by exact_mod_cast h
  have hI : Itoa (k : Int) = formatBits (k + 1) k [] := by
    unfold Itoa
    simp
  rw [hI]
  have hdig := formatBits_digits (k + 1) k [] (by simp)
  have hval : digitsValue 0 (formatBits (k + 1) k []) = k := by
    rw [formatBits_value (k + 1) k [] (by omega)]
    simp [digitsValue]
  have hne := formatBits_ne_nil (k + 1) k [] (Or.inr (by omega))
  have hmax : maxUint64 = 18446744073709551615 := by decide
  have h63 : (2:Nat) ^ 63 = 9223372036854775808 := by norm_num
  have hP : parseUintLoop (formatBits (k + 1) k []) 0 = (k, none) := by
    rw [parseUintLoop_digits _ 0 hdig (by rw [hval, hmax]; omega), hval]
  cases hds : formatBits (k + 1) k [] with
  | nil => exact absurd hds hne
  | cons c cs =>
    rw [hds] at hdig hP
    have hc := hdig c (List.mem_cons_self c cs)
    have hplus : c ≠ '+' := by
      intro e
      rw [e] at hc
      exact absurd hc (by decide)
    have hminus : c ≠ '-' := by
      intro e
      rw [e] at hc
      exact absurd hc (by decide)
    unfold Atoi ParseInt ParseUint
    simp only [hplus, hminus, or_self, if_false, reduceCtorEq, hP, decide_False]
    have : ¬ (k ≥ 2 ^ 63) := by omega
    simp
    omega
/-- Every string the Darwin enumerator returns is the decimal form of the
identifier of a listed record with a positive identifier; for identifiers in the
`int32` range it parses back without error to that positive integer. -/
theorem darwin_FindPIDs_positive (k : darwin.Kernel) (target : Str) (exact : Bool)
    (pids : List Str) (h : darwin.FindPIDs k target exact = Except.ok pids) :
    ∀ s ∈ pids, ∃ kprocs kp, k.SysctlKinfoProcSlice = Except.ok kprocs ∧ kp ∈ kprocs ∧
      0 < kp.P_pid ∧ s = Itoa kp.P_pid ∧
      (kp.P_pid < 2 ^ 31 → (Atoi s).2 = none ∧ 0 < (Atoi s).1) := by
  intro s hs
  cases hd : k.SysctlKinfoProcSlice with
  | error err => simp [darwin.FindPIDs, hd] at h
  | ok kprocs =>
    rw [darwin_FindPIDs_eq_filter k target exact kprocs hd] at h
    injection h with h'
    subst h'
    obtain ⟨kp, hkp, rfl⟩ := List.mem_map.mp hs
    have hm := List.mem_filter.mp hkp
    have hpos : 0 < kp.P_pid := by
      have hsel := hm.2
      unfold darwin.selects at hsel
      simp only [Bool.and_eq_true, decide_eq_true_eq] at hsel
      exact hsel.1
    refine ⟨kprocs, kp, rfl, hm.1, hpos, rfl, fun hlt => ?_⟩
    rw [Atoi_Itoa kp.P_pid (le_of_lt hpos) (by omega)]
    exact ⟨rfl, hpos⟩

/-- The kill option delivers a signal to the program itself exactly when it is
on and the signal sent to some surviving identifier reaches the program. -/
theorem selfSignalled_iff (opts : Options) (self : Int) (routed : Int → Bool) (out : List Str) :
    selfSignalled opts self routed out = true ↔
      (opts.Kill = true ∧ ∃ p ∈ out, hitsSelf self routed (Atoi p).1 = true) := by
  unfold selfSignalled
  simp [List.any_eq_true]

/-- With self-exclusion on, the filtered identifiers are the range-filtered
ones that differ from the decimal form of `self`, and no surviving identifier
equals that decimal form. -/
theorem surviving_ne_self (opts : Options) (self : Int) (pids : List Str)
    (h : opts.IgnoreSelf = true) :
    filteredPids opts self pids =
      (numericFilter opts pids).filter (fun p => decide (p ≠ Itoa self)) ∧
    ∀ out, surviving opts self pids = some out → ∀ p ∈ out, p ≠ Itoa self := by
  have hf : filteredPids opts self pids =
      (numericFilter opts pids).filter (fun p => decide (p ≠ Itoa self)) := by
    unfold filteredPids
    rw [ignoreSelf_eq]
    simp [h]
  refine ⟨hf, fun out hs p hp => ?_⟩
  have hm := mem_surviving opts self pids out hs p hp
  rw [hf] at hm
  simpa using (List.mem_filter.mp hm).2

/-- On Darwin, with self-exclusion on and identifiers in the `int32` range, no
surviving identifier has the numeric value `self`. -/
theorem darwin_self_excluded (k : darwin.Kernel) (target : Str) (opts : Options) (self : Int)
    (pids out : List Str) (hF : darwin.FindPIDs k target opts.Exact = Except.ok pids)
    (hI : opts.IgnoreSelf = true)
    (h32 : ∀ kprocs, k.SysctlKinfoProcSlice = Except.ok kprocs → ∀ kp ∈ kprocs, kp.P_pid < 2 ^ 31)
    (hs : surviving opts self pids = some out) :
    ∀ p ∈ out, (Atoi p).1 ≠ self := by
  intro p hp heq
  have hne := (surviving_ne_self opts self pids hI).2 out hs p hp
  have hmem := (mem_filteredPids opts self pids p (mem_surviving opts self pids out hs p hp)).1
  obtain ⟨kprocs, kp, hk, hkp, hpos, hpI, _⟩ :=
    darwin_FindPIDs_positive k target opts.Exact pids hF p hmem
  have hlt := h32 kprocs hk kp hkp
  have hA := Atoi_Itoa kp.P_pid (le_of_lt hpos) (by omega)
  rw [hpI, hA] at heq
  simp only at heq
  exact hne (by rw [hpI, heq])

/-! ## The claims -/

/-- C3: on both enumerators, for every snapshot and every target, the result
without the exact flag is a subsequence of the result with it (so every
identifier returned by `FindPIDs(target, false)` is returned by
`FindPIDs(target, true)`); when the listing itself fails, both calls fail with
the same error. -/
theorem C3_exact_superset (fs : linux.ProcFS) (k : darwin.Kernel) (target : Str) :
    ((∃ err, linux.FindPIDs fs target false = Except.error err ∧
          linux.FindPIDs fs target true = Except.error err) ∨
      (∃ a b, linux.FindPIDs fs target false = Except.ok a ∧
          linux.FindPIDs fs target true = Except.ok b ∧ a.Sublist b ∧ ∀ p ∈ a, p ∈ b)) ∧
    ((∃ err, darwin.FindPIDs k target false = Except.error err ∧
          darwin.FindPIDs k target true = Except.error err) ∨
      (∃ a b, darwin.FindPIDs k target false = Except.ok a ∧
          darwin.FindPIDs k target true = Except.ok b ∧ a.Sublist b ∧ ∀ p ∈ a, p ∈ b)) := by
  constructor
  · cases h : fs.ReadDir with
    | error err =>
      left
      exact ⟨err, by simp [linux.FindPIDs, h], by simp [linux.FindPIDs, h]⟩
    | ok entries =>
      right
      have hs := filter_sublist_of_imp _ _ (linux_selects_mono fs target) entries
      exact ⟨_, _, linux_FindPIDs_eq_filter fs target false entries h,
        linux_FindPIDs_eq_filter fs target true entries h, hs, fun p hp => hs.subset hp⟩
  · cases h : k.SysctlKinfoProcSlice with
    | error err =>
      left
      exact ⟨"sysctl: ".toList ++ err, by simp [darwin.FindPIDs, h], by simp [darwin.FindPIDs, h]⟩
    | ok kprocs =>
      right
      have hs := (filter_sublist_of_imp _ _ (darwin_selects_mono k target) kprocs).map
        (fun kp => Itoa kp.P_pid)
      exact ⟨_, _, darwin_FindPIDs_eq_filter k target false kprocs h,
        darwin_FindPIDs_eq_filter k target true kprocs h, hs, fun p hp => hs.subset hp⟩

/-- C4: whatever the target and the exact flag, the Linux enumerator never
returns an entry whose trimmed command name starts with `[` and ends with `]`;
and when the target itself starts with `[` and ends with `]` and the exact flag
is off, the result is empty. -/
theorem C4_kernel_threads_excluded (fs : linux.ProcFS) (target : Str) (exact : Bool)
    (pids : List Str) (h : linux.FindPIDs fs target exact = Except.ok pids) :
    (∀ pid comm, linux.commOf fs pid = some comm → comm.head? = some '[' →
        comm.getLast? = some ']' → pid ∉ pids) ∧
    (target.head? = some '[' → target.getLast? = some ']' → exact = false → pids = []) := by
  cases hd : fs.ReadDir with
  | error err => simp [linux.FindPIDs, hd] at h
  | ok entries =>
    rw [linux_FindPIDs_eq_filter fs target exact entries hd] at h
    have hp : pids = entries.filter (linux.selects fs target exact) := by
      injection h with h'
      exact h'.symm
    subst hp
    constructor
    · intro pid comm hc hh hl hmem
      obtain ⟨comm', hc', hb, _⟩ := linux_selects_comm fs target pid exact (List.mem_filter.mp hmem).2
      rw [hc] at hc'
      injection hc' with hc'
      subst hc'
      have := (bracketed_iff comm).mpr ⟨hh, hl⟩
      rw [this] at hb
      exact Bool.noConfusion hb
    · intro hh hl he
      subst he
      apply List.filter_eq_nil_iff.mpr
      intro pid _ hsel
      obtain ⟨comm, _, hb, hor⟩ := linux_selects_comm fs target pid false hsel
      rcases hor with heq | ⟨hf, _⟩
      · subst heq
        have := (bracketed_iff comm).mpr ⟨hh, hl⟩
        rw [this] at hb
        exact Bool.noConfusion hb
      · exact Bool.noConfusion hf

/-- C4 at a concrete snapshot: entry 2 is named `[kthreadd]`; with target
`[kthreadd]` and the exact flag off the result is empty. -/
theorem C4_kernel_threads_excluded_witness :
    linux.FindPIDs demoFS "[kthreadd]".toList false = Except.ok [] ∧
    linux.commOf demoFS "2".toList = some "[kthreadd]".toList ∧
    ((∀ pid comm, linux.commOf demoFS pid = some comm → comm.head? = some '[' →
        comm.getLast? = some ']' → pid ∉ ([] : List Str)) ∧
      ("[kthreadd]".toList.head? = some '[' → "[kthreadd]".toList.getLast? = some ']' →
        false = false → ([] : List Str) = [])) :=
  ⟨by rfl, by rfl, C4_kernel_threads_excluded demoFS "[kthreadd]".toList false [] (by rfl)⟩

/-- C10, the claim as stated fails: entry 5 is a process whose name is one
space, not the empty string; its `comm` file reads as the empty string once
trimmed, and the Linux enumerator returns it for the empty target. -/
theorem C10_counterexample :
    linux.FindPIDs spaceFS [] false = Except.ok ["5".toList] ∧
    spaceFS.ReadFile "/proc/5/comm".toList = some (commFileOf [' ']) ∧
    ([' '] : Str) ≠ [] ∧
    linux.commOf spaceFS "5".toList = some [] := by
  refine ⟨by rfl, by rfl, by decide, by rfl⟩

/-- C10, amended: with the empty target, the Linux enumerator returns only
entries whose command name is the empty string once trimmed of white space (an
empty name, or a name of white space only), and nothing when no entry has such a
name; the Darwin enumerator returns nothing, since the base name it compares is
never empty; and on both the exact flag changes nothing, since the argument scan
never matches the empty target. -/
theorem C10_empty_target (fs : linux.ProcFS) (k : darwin.Kernel) (exact : Bool) :
    (∀ pids, linux.FindPIDs fs [] exact = Except.ok pids →
        ∀ pid ∈ pids, linux.commOf fs pid = some []) ∧
    (∀ entries, fs.ReadDir = Except.ok entries →
        (∀ pid ∈ entries, linux.commOf fs pid ≠ some []) →
        linux.FindPIDs fs [] exact = Except.ok []) ∧
    (∀ pids, darwin.FindPIDs k [] exact = Except.ok pids → pids = []) ∧
    linux.FindPIDs fs [] true = linux.FindPIDs fs [] false ∧
    darwin.FindPIDs k [] true = darwin.FindPIDs k [] false ∧
    (∀ pid, linux.argScan fs [] pid = false) ∧
    (∀ parts, anyBase [] parts = false) := by
  have hargs : ∀ pid, linux.argScan fs [] pid = false := by
    intro pid
    unfold linux.argScan
    cases fs.ReadFile (Join "/proc".toList pid "cmdline".toList) <;> simp [anyBase_nil]
  have hlin : ∀ e pid, linux.selects fs [] e pid = true → linux.commOf fs pid = some [] := by
    intro e pid hsel
    obtain ⟨comm, hc, _, hor⟩ := linux_selects_comm fs [] pid e hsel
    rcases hor with heq | ⟨_, hs⟩
    · rw [hc, heq]
    · rw [hargs pid] at hs
      exact Bool.noConfusion hs
  have hdar : ∀ e kp, darwin.selects k [] e kp = false := by
    intro e kp
    unfold darwin.selects
    rcases darwin.partsOf k kp.P_pid with _ | (_ | ⟨part0, rest⟩) <;>
      simp [anyBase_nil, Base_ne_nil]
  have hlsame : ∀ pid, linux.selects fs [] true pid = linux.selects fs [] false pid := by
    intro pid
    unfold linux.selects
    simp [hargs pid]
  refine ⟨?_, ?_, ?_, ?_, ?_, hargs, anyBase_nil⟩
  · intro pids h pid hmem
    cases hd : fs.ReadDir with
    | error err => simp [linux.FindPIDs, hd] at h
    | ok entries =>
      rw [linux_FindPIDs_eq_filter fs [] exact entries hd] at h
      injection h with h'
      subst h'
      exact hlin exact pid (List.mem_filter.mp hmem).2
  · intro entries hd hnone
    rw [linux_FindPIDs_eq_filter fs [] exact entries hd]
    congr 1
    apply List.filter_eq_nil_iff.mpr
    intro pid hmem hsel
    exact hnone pid hmem (hlin exact pid hsel)
  · intro pids h
    cases hd : k.SysctlKinfoProcSlice with
    | error err => simp [darwin.FindPIDs, hd] at h
    | ok kprocs =>
      rw [darwin_FindPIDs_eq_filter k [] exact kprocs hd] at h
      injection h with h'
      subst h'
      have : kprocs.filter (darwin.selects k [] exact) = [] :=
        List.filter_eq_nil_iff.mpr (fun kp _ hsel => by simp [hdar exact kp] at hsel)
      simp [this]
  · cases hd : fs.ReadDir with
    | error err => simp [linux.FindPIDs, hd]
    | ok entries =>
      rw [linux_FindPIDs_eq_filter fs [] true entries hd,
        linux_FindPIDs_eq_filter fs [] false entries hd]
      congr 1
      exact List.filter_congr (fun pid _ => hlsame pid)
  · cases hd : k.SysctlKinfoProcSlice with
    | error err => simp [darwin.FindPIDs, hd]
    | ok kprocs =>
      rw [darwin_FindPIDs_eq_filter k [] true kprocs hd,
        darwin_FindPIDs_eq_filter k [] false kprocs hd]
      congr 2
      exact List.filter_congr (fun kp _ => by rw [hdar true kp, hdar false kp])

/-- C1: the filtering loop keeps an identifier exactly when its numeric value
`n` (by `strconv.Atoi`) satisfies `(minPID <= 0 or n >= minPID) and (maxPID <= 0
or n <= maxPID)`; the kept identifiers are in their original order; and every
identifier of the final output of the pipeline and of `main` satisfies both
bounds. -/
theorem C1_numeric_range_filter (opts : Options) (pids : List Str) (self : Int) :
    (∀ p, p ∈ numericFilter opts pids ↔ p ∈ pids ∧ inRange opts p) ∧
    numericFilter opts pids = pids.filter (fun p => decide (inRange opts p)) ∧
    (numericFilter opts pids).Sublist pids ∧
    (∀ out, surviving opts self pids = some out → ∀ p ∈ out, inRange opts p) ∧
    (∀ args parseErr F routed, (main opts args parseErr F self routed).exitCode = 0 →
      ∃ out, (main opts args parseErr F self routed).stdout =
          [if opts.JSON then Write.Encode out else Write.Println (strings_Join out [' '])] ∧
        ∀ p ∈ out, inRange opts p) := by
  refine ⟨?_, numericFilter_eq opts pids, ?_, ?_, ?_⟩
  · intro p
    rw [numericFilter_eq, List.mem_filter]
    simp
  · rw [numericFilter_eq]
    exact List.filter_sublist pids
  · intro out h p hp
    exact (mem_filteredPids opts self pids p (mem_surviving opts self pids out h p hp)).2
  · intro args parseErr F routed h
    obtain ⟨target, pids', out, _, _, _, hs, hm⟩ :=
      main_exit_zero opts args parseErr F self routed h
    refine ⟨out, ?_, fun p hp => ?_⟩
    · rw [hm] at h ⊢
      exact (emit_stdout opts self routed out).2.2.1 h
    · exact (mem_filteredPids opts self pids' p (mem_surviving opts self pids' out hs p hp)).2

/-- C5, the claim as stated fails: with self-exclusion on and own identifier 7,
an entry named `+7` is printed, and its numeric value is 7. -/
theorem C5_counterexample :
    main { noOpts with IgnoreSelf := true } ["bash".toList] none (linux.FindPIDs signFS) 7
        (fun _ => false) =
      ⟨0, [Write.Println "+7".toList], [], []⟩ ∧
    (Atoi "+7".toList).1 = 7 := by
  constructor
  · rfl
  · rfl

/-- C5, amended: with self-exclusion on, the self-exclusion step keeps exactly
the range-filtered identifiers different, as strings, from the decimal form
`strconv.Itoa(self)`, in order; so no identifier of the output equals that
string, and no identifier of the output that is in decimal form (equal to
`Itoa` of its numeric value) has the numeric value `self`. -/
theorem C5_self_exclusion (opts : Options) (self : Int) (pids : List Str)
    (h : opts.IgnoreSelf = true) :
    filteredPids opts self pids =
      (numericFilter opts pids).filter (fun p => decide (p ≠ Itoa self)) ∧
    (∀ out, surviving opts self pids = some out →
      ∀ p ∈ out, p ≠ Itoa self ∧ (p = Itoa (Atoi p).1 → (Atoi p).1 ≠ self)) ∧
    (∀ target F routed, F target opts.Exact = Except.ok pids →
      (main opts [target] none F self routed).exitCode = 0 →
      ∃ out, (main opts [target] none F self routed).stdout =
          [if opts.JSON then Write.Encode out else Write.Println (strings_Join out [' '])] ∧
        ∀ p ∈ out, p ≠ Itoa self ∧ (p = Itoa (Atoi p).1 → (Atoi p).1 ≠ self)) := by
  have hbase := surviving_ne_self opts self pids h
  have hout : ∀ out, surviving opts self pids = some out →
      ∀ p ∈ out, p ≠ Itoa self ∧ (p = Itoa (Atoi p).1 → (Atoi p).1 ≠ self) := by
    intro out hs p hp
    have hne := hbase.2 out hs p hp
    refine ⟨hne, fun hcanon heq => hne ?_⟩
    rw [heq] at hcanon
    exact hcanon
  refine ⟨hbase.1, hout, ?_⟩
  intro target F routed hF h0
  rw [main_ok opts target F self routed pids hF] at h0 ⊢
  cases hs : surviving opts self pids with
  | none => simp [hs] at h0
  | some out =>
    simp only [hs] at h0 ⊢
    exact ⟨out, (emit_stdout opts self routed out).2.2.1 h0, hout out hs⟩

/-- C5 amended, at a concrete input: own identifier 300 among 100, 300, 200;
the identifiers 100 and 200 are kept and printed. -/
theorem C5_self_exclusion_witness :
    surviving { noOpts with IgnoreSelf := true } 300
        ["100".toList, "300".toList, "200".toList] = some ["100".toList, "200".toList] ∧
    (filteredPids { noOpts with IgnoreSelf := true } 300
          ["100".toList, "300".toList, "200".toList] =
        (numericFilter { noOpts with IgnoreSelf := true }
          ["100".toList, "300".toList, "200".toList]).filter
            (fun p => decide (p ≠ Itoa 300)) ∧
      (∀ out, surviving { noOpts with IgnoreSelf := true } 300
          ["100".toList, "300".toList, "200".toList] = some out →
        ∀ p ∈ out, p ≠ Itoa 300 ∧ (p = Itoa (Atoi p).1 → (Atoi p).1 ≠ 300)) ∧
      (∀ target F routed, F target ({ noOpts with IgnoreSelf := true } : Options).Exact =
          Except.ok ["100".toList, "300".toList, "200".toList] →
        (main { noOpts with IgnoreSelf := true } [target] none F 300 routed).exitCode = 0 →
        ∃ out, (main { noOpts with IgnoreSelf := true } [target] none F 300 routed).stdout =
            [if ({ noOpts with IgnoreSelf := true } : Options).JSON then Write.Encode out
              else Write.Println (strings_Join out [' '])] ∧
          ∀ p ∈ out, p ≠ Itoa 300 ∧ (p = Itoa (Atoi p).1 → (Atoi p).1 ≠ 300))) :=
  ⟨by rfl, C5_self_exclusion { noOpts with IgnoreSelf := true } 300
    ["100".toList, "300".toList, "200".toList] rfl⟩

/-- C6, amended: in single-result mode, for every non-empty filtered slice,
exactly one identifier survives; it is an element of the filtered slice that no
element is less than in the lexicographic order of strings; the slice
expression `pids[:1]` is evaluated on a slice with elements and succeeds; and
`main` prints that identifier alone and exits with code 0, unless the kill
option is on and the signal sent to that identifier is delivered to the program
itself (as the signal sent to its own identifier is): then that one signal is
sent and nothing is printed. -/
theorem C6_single_result (opts : Options) (self : Int) (pids : List Str)
    (hS : opts.Single = true) (hne : filteredPids opts self pids ≠ []) :
    ∃ m, surviving opts self pids = some [m] ∧
      sliceTo1 (sort_Strings (filteredPids opts self pids)) = some [m] ∧
      m ∈ filteredPids opts self pids ∧
      (∀ p ∈ filteredPids opts self pids, strLess p m = false) ∧
      (∀ target F routed, F target opts.Exact = Except.ok pids →
        (¬ (opts.Kill = true ∧ hitsSelf self routed (Atoi m).1 = true) →
          (main opts [target] none F self routed).exitCode = 0 ∧
          (main opts [target] none F self routed).stdout =
            [if opts.JSON then Write.Encode [m] else Write.Println m]) ∧
        ((opts.Kill = true ∧ hitsSelf self routed (Atoi m).1 = true) →
          (main opts [target] none F self routed).stdout = [] ∧
          (main opts [target] none F self routed).signals = [((Atoi m).1, os_Interrupt)] ∧
          (main opts [target] none F self routed).exitCode ≠ 0)) := by
  cases hs : sort_Strings (filteredPids opts self pids) with
  | nil => exact absurd hs (sort_Strings_ne_nil _ hne)
  | cons m rest =>
    have hmin := sort_Strings_head_min _ m rest hs
    have hsv : surviving opts self pids = some [m] := by
      rw [surviving_eq]
      simp [hne, hS, hs]
    refine ⟨m, hsv, rfl, hmin.1, hmin.2, ?_⟩
    intro target F routed hF
    rw [main_ok opts target F self routed pids hF, hsv]
    simp only
    constructor
    · intro hno
      have hsig : selfSignalled opts self routed [m] = false := by
        cases h : selfSignalled opts self routed [m] with
        | false => rfl
        | true =>
          obtain ⟨hk, p, hp, hh⟩ := (selfSignalled_iff opts self routed [m]).mp h
          rw [List.mem_singleton.mp hp] at hh
          exact absurd ⟨hk, hh⟩ hno
      rw [emit_printed opts self routed [m] hsig]
      simp [strings_Join]
    · intro hyes
      have hsig : selfSignalled opts self routed [m] = true :=
        (selfSignalled_iff opts self routed [m]).mpr ⟨hyes.1, m, List.mem_singleton.mpr rfl, hyes.2⟩
      rw [emit_ended opts self routed [m] hsig]
      simp [killLoop, hyes.2, os_Interrupt, SIGINT]

/-- C6 amended, at a concrete input: from the filtered identifiers 9 and 10 the
single-result mode keeps `10`, the least as a string, not as a number. -/
theorem C6_single_result_witness :
    surviving { noOpts with Single := true } 1 ["9".toList, "10".toList] = some ["10".toList] ∧
    main { noOpts with Single := true } ["foo".toList] none
        (fun _ _ => Except.ok ["9".toList, "10".toList]) 1 (fun _ => false) =
      ⟨0, [Write.Println "10".toList], [], []⟩ ∧
    ∃ m, surviving { noOpts with Single := true } 1 ["9".toList, "10".toList] = some [m] ∧
      sliceTo1 (sort_Strings (filteredPids { noOpts with Single := true } 1
        ["9".toList, "10".toList])) = some [m] ∧
      m ∈ filteredPids { noOpts with Single := true } 1 ["9".toList, "10".toList] ∧
      (∀ p ∈ filteredPids { noOpts with Single := true } 1 ["9".toList, "10".toList],
        strLess p m = false) ∧
      (∀ target F routed, F target ({ noOpts with Single := true } : Options).Exact =
          Except.ok ["9".toList, "10".toList] →
        (¬ (({ noOpts with Single := true } : Options).Kill = true ∧
            hitsSelf 1 routed (Atoi m).1 = true) →
          (main { noOpts with Single := true } [target] none F 1 routed).exitCode = 0 ∧
          (main { noOpts with Single := true } [target] none F 1 routed).stdout =
            [if ({ noOpts with Single := true } : Options).JSON then Write.Encode [m]
              else Write.Println m]) ∧
        ((({ noOpts with Single := true } : Options).Kill = true ∧
            hitsSelf 1 routed (Atoi m).1 = true) →
          (main { noOpts with Single := true } [target] none F 1 routed).stdout = [] ∧
          (main { noOpts with Single := true } [target] none F 1 routed).signals =
            [((Atoi m).1, os_Interrupt)] ∧
          (main { noOpts with Single := true } [target] none F 1 routed).exitCode ≠ 0)) :=
  ⟨by rfl, by rfl,
    C6_single_result { noOpts with Single := true } 1 ["9".toList, "10".toList] rfl (by decide)⟩

/-- C6, the claim as stated fails: `pidof -s -k pidof` running as process 7, the
only process named `pidof`: the filtered slice holds the one identifier 7, the
signal is sent to the program itself and no identifier is printed. -/
theorem C6_counterexample :
    linux.FindPIDs singleFS "pidof".toList false = Except.ok ["7".toList] ∧
    filteredPids { noOpts with Single := true, Kill := true } 7 ["7".toList] = ["7".toList] ∧
    main { noOpts with Single := true, Kill := true } ["pidof".toList] none
        (linux.FindPIDs singleFS) 7 (fun _ => false) =
      ⟨130, [], [], [(7, SIGINT)]⟩ := by
  refine ⟨by rfl, by rfl, by rfl⟩

/-- C7, the claim as stated fails: `pidof -x -k foo` running as process 7, with a
process 30 named `foo`: option parsing succeeds, there is one positional
argument, the enumerator returns 30 and 7 (the argument vector of the program
itself holds `foo`) and both are left after filtering, yet the exit code is not
0: the program sends the signal to 30 and then to itself. -/
theorem C7_counterexample :
    linux.FindPIDs killFS "foo".toList true = Except.ok ["30".toList, "7".toList] ∧
    filteredPids { noOpts with Exact := true, Kill := true } 7 ["30".toList, "7".toList] =
      ["30".toList, "7".toList] ∧
    main { noOpts with Exact := true, Kill := true } ["foo".toList] none
        (linux.FindPIDs killFS) 7 (fun _ => false) =
      ⟨130, [], [], [(30, SIGINT), (7, SIGINT)]⟩ := by
  refine ⟨by rfl, by rfl, by rfl⟩

/-- C7, amended: the exit code of `main` is 2 exactly when option parsing fails
or the number of positional arguments is not 1; otherwise it is 1 exactly when
the enumerator returns an error or no identifier is left after range filtering
and self-exclusion; in the remaining case it is 0, unless the kill option is on
and the signal sent to one of the surviving identifiers is delivered to the
program itself (as the signal sent to its own identifier is): then the program
is ended by that signal, with nothing written to standard output and an exit
status other than 0, 1 and 2.  When the exit code is 1, nothing is written to
standard output, and something is written to standard error exactly when the
enumerator returned an error. -/
theorem C7_exit_codes (opts : Options) (args : List Str) (parseErr : Option Str)
    (F : Str → Bool → Except Str (List Str)) (self : Int) (routed : Int → Bool) :
    ((main opts args parseErr F self routed).exitCode = 2 ↔
      (parseErr.isSome = true ∨ args.length ≠ 1)) ∧
    (∀ target, parseErr = none → args = [target] →
      ((main opts args parseErr F self routed).exitCode = 1 ↔
        ((∃ err, F target opts.Exact = Except.error err) ∨
          (∃ pids, F target opts.Exact = Except.ok pids ∧ filteredPids opts self pids = []))) ∧
      ((main opts args parseErr F self routed).exitCode ≠ 1 →
        ∃ pids out, F target opts.Exact = Except.ok pids ∧
          surviving opts self pids = some out ∧
          (¬ (opts.Kill = true ∧ ∃ p ∈ out, hitsSelf self routed (Atoi p).1 = true) →
            (main opts args parseErr F self routed).exitCode = 0) ∧
          ((opts.Kill = true ∧ ∃ p ∈ out, hitsSelf self routed (Atoi p).1 = true) →
            (main opts args parseErr F self routed).exitCode = 128 + os_Interrupt ∧
            (main opts args parseErr F self routed).stdout = []))) ∧
    ((main opts args parseErr F self routed).exitCode = 1 →
      (main opts args parseErr F self routed).stdout = [] ∧
      ((main opts args parseErr F self routed).stderr ≠ [] ↔
        ∃ target err, args = [target] ∧ F target opts.Exact = Except.error err)) := by
  cases hp : parseErr with
  | some e =>
    rw [main_parse_error opts args (some e) F self routed rfl]
    simp
  | none =>
    by_cases hl : args.length = 1
    · obtain ⟨target, rfl⟩ := List.length_eq_one.mp hl
      cases hF : F target opts.Exact with
      | error err =>
        rw [main_enum_error opts target F self routed err hF]
        refine ⟨by simp, ?_, ?_⟩
        · intro t _ ht
          have : target = t := by simpa using ht
          subst this
          simp [hF]
        · intro _
          refine ⟨rfl, ?_⟩
          simp [hF]
      | ok pids =>
        rw [main_ok opts target F self routed pids hF]
        cases hs : surviving opts self pids with
        | none =>
          have hempty := (surviving_eq_none opts self pids).mp hs
          refine ⟨by simp, ?_, ?_⟩
          · intro t _ ht
            have : target = t := by simpa using ht
            subst this
            simp [hF, hempty]
          · intro _
            refine ⟨rfl, ?_⟩
            simp [hF]
        | some out =>
          have hne : filteredPids opts self pids ≠ [] := by
            intro hcon
            rw [(surviving_eq_none opts self pids).mpr hcon] at hs
            exact Option.noConfusion hs
          have hE := emit_stdout opts self routed out
          simp only
          refine ⟨?_, ?_, ?_⟩
          · constructor
            · intro h2
              exact absurd h2 hE.2.2.2.2
            · intro h
              rcases h with h | h
              · simp at h
              · simp at h
          · intro t _ ht
            have : target = t := by simpa using ht
            subst this
            refine ⟨?_, ?_⟩
            · constructor
              · intro h1
                exact absurd h1 hE.2.2.2.1
              · intro h
                rcases h with ⟨err, he⟩ | ⟨pids', hp', hemp⟩
                · rw [hF] at he
                  exact Except.noConfusion he
                · rw [hF] at hp'
                  injection hp' with hp'
                  subst hp'
                  exact absurd hemp hne
            · intro _
              refine ⟨pids, out, hF, hs, ?_, ?_⟩
              · intro hno
                have hsig : selfSignalled opts self routed out = false := by
                  cases h : selfSignalled opts self routed out with
                  | false => rfl
                  | true => exact absurd ((selfSignalled_iff opts self routed out).mp h) hno
                exact hE.2.1.mpr hsig
              · intro hyes
                have hsig := (selfSignalled_iff opts self routed out).mpr hyes
                rw [emit_ended opts self routed out hsig]
                exact ⟨rfl, rfl⟩
          · intro h1
            exact absurd h1 hE.2.2.2.1
    · rw [main_usage opts args F self routed hl]
      refine ⟨by simp [hl], ?_, ?_⟩
      · intro t _ ht
        rw [ht] at hl
        simp at hl
      · intro h
        simp at h

/-- C8, the code at a concrete input: with the kill option on and the surviving
identifiers 100 and 200, `main` sends each of them `os.Interrupt`, which is
`SIGINT` (2) and not `SIGTERM` (15); the printed line is the one printed with
the option off. -/
theorem C8_kill_sends_interrupt :
    (main { noOpts with Kill := true } ["bash".toList] none
        (fun _ _ => Except.ok ["200".toList, "100".toList]) 1 (fun _ => false)).signals =
      [(100, SIGINT), (200, SIGINT)] ∧
    SIGINT ≠ SIGTERM ∧
    (main { noOpts with Kill := true } ["bash".toList] none
        (fun _ _ => Except.ok ["200".toList, "100".toList]) 1 (fun _ => false)).stdout =
      (main noOpts ["bash".toList] none
        (fun _ _ => Except.ok ["200".toList, "100".toList]) 1 (fun _ => false)).stdout := by
  refine ⟨by rfl, by decide, by rfl⟩

/-- C2, the code at a concrete input: entry 7 runs `bash` with the argument
vector `bash` and entry 9 runs `python3` with the arguments `/usr/bin/python3`
and `/opt/job.py`; no command name and no base name of an argument is `.`, yet
with target `.` and the exact flag on both entries are returned (the empty field
after the last null byte has base name `.`). -/
theorem C2_dot_target_matches :
    linux.FindPIDs demoFS ['.'] true = Except.ok ["7".toList, "9".toList] ∧
    linux.commOf demoFS "7".toList = some "bash".toList ∧
    demoFS.ReadFile "/proc/7/cmdline".toList = some (cmdlineOf ["bash".toList]) ∧
    ruleOfSpec ['.'] true "bash".toList ["bash".toList] = false ∧
    linux.commOf demoFS "9".toList = some "python3".toList ∧
    demoFS.ReadFile "/proc/9/cmdline".toList =
      some (cmdlineOf ["/usr/bin/python3".toList, "/opt/job.py".toList]) ∧
    ruleOfSpec ['.'] true "python3".toList
      ["/usr/bin/python3".toList, "/opt/job.py".toList] = false := by
  refine ⟨by rfl, by rfl, by rfl, by decide, by rfl, by rfl, by decide⟩

/-- C9, the code at a concrete input: the Linux enumerator returns the entry
names `0` and `-3`, which `strconv.Atoi` parses without error to 0 and -3,
neither a positive integer. -/
theorem C9_linux_returns_nonpositive :
    linux.FindPIDs zeroFS "bash".toList false = Except.ok ["0".toList, "-3".toList] ∧
    Atoi "0".toList = (0, none) ∧ Atoi "-3".toList = (-3, none) := by
  refine ⟨by rfl, by rfl, by rfl⟩

/-! ## The model on concrete inputs -/

/-- The library functions on sample inputs. -/
theorem stdlib_samples :
    Atoi "123".toList = (123, none) ∧
    Atoi "-5".toList = (-5, none) ∧
    Atoi "+05".toList = (5, none) ∧
    Atoi "1x".toList = (0, some NumError.ErrSyntax) ∧
    Atoi "".toList = (0, some NumError.ErrSyntax) ∧
    Atoi "99999999999999999999x".toList = (2 ^ 63 - 1, some NumError.ErrRange) ∧
    Atoi "9223372036854775807".toList = (2 ^ 63 - 1, none) ∧
    Atoi "-9223372036854775808".toList = (-2 ^ 63, none) ∧
    Itoa 120 = "120".toList ∧
    Itoa (-7) = "-7".toList ∧
    Itoa 0 = "0".toList ∧
    Base "/usr/bin/python3".toList = "python3".toList ∧
    Base "".toList = ".".toList ∧
    Base "///".toList = "/".toList ∧
    Base "a/b//".toList = "b".toList ∧
    Split ['a', NUL, 'b', NUL] NUL = [['a'], ['b'], []] ∧
    Split [] NUL = [[]] ∧
    TrimSpace " [kthreadd]\n".toList = "[kthreadd]".toList ∧
    strings_Join ["1".toList, "22".toList, "3".toList] [' '] = "1 22 3".toList ∧
    sort_Strings ["9".toList, "10".toList, "100".toList] =
      ["10".toList, "100".toList, "9".toList] := by
  decide

/-- The enumerators on the sample process tables. -/
theorem enumerator_samples :
    linux.FindPIDs demoFS "bash".toList false = Except.ok ["7".toList] ∧
    linux.FindPIDs demoFS "job.py".toList false = Except.ok [] ∧
    linux.FindPIDs demoFS "job.py".toList true = Except.ok ["9".toList] ∧
    linux.FindPIDs demoFS "python3".toList true = Except.ok ["9".toList] ∧
    linux.FindPIDs demoFS "[kthreadd]".toList true = Except.ok [] ∧
    linux.FindPIDs demoFS [] true = Except.ok ["11".toList] ∧
    darwin.FindPIDs demoKernel "zsh".toList false = Except.ok ["40".toList] ∧
    darwin.FindPIDs demoKernel "job.py".toList false = Except.ok [] ∧
    darwin.FindPIDs demoKernel "job.py".toList true = Except.ok ["41".toList] ∧
    darwin.FindPIDs demoKernel [] true = Except.ok [] := by
  refine ⟨by rfl, by rfl, by rfl, by rfl, by rfl, by rfl, by rfl, by rfl, by rfl, by rfl⟩

/-- The scenario of the specification: processes 100 `foo`, 200 `bar`, 300
`foo`; the enumerator returns 100 and 300, the lower bound 150 leaves 300, and so
does the single-result mode; with no match the exit code is 1 and nothing is
printed, also in JSON mode.  With the kill option the signals go out in the
order of the sorted slice, and the loop stops at the program's own identifier. -/
theorem main_samples :
    main noOpts ["foo".toList] none (fun _ _ => Except.ok ["100".toList, "300".toList]) 1
        (fun _ => false) =
      ⟨0, [Write.Println "100 300".toList], [], []⟩ ∧
    main { noOpts with MinPID := 150 } ["foo".toList] none
        (fun _ _ => Except.ok ["100".toList, "300".toList]) 1 (fun _ => false) =
      ⟨0, [Write.Println "300".toList], [], []⟩ ∧
    main { noOpts with MinPID := 150, Single := true, JSON := true } ["foo".toList] none
        (fun _ _ => Except.ok ["100".toList, "300".toList]) 1 (fun _ => false) =
      ⟨0, [Write.Encode ["300".toList]], [], []⟩ ∧
    main { noOpts with JSON := true } ["foo".toList] none (fun _ _ => Except.ok []) 1
        (fun _ => false) =
      ⟨1, [], [], []⟩ ∧
    main noOpts ["foo".toList] none (fun _ _ => Except.error "denied".toList) 1
        (fun _ => false) =
      ⟨1, [], ["error: denied\n".toList], []⟩ ∧
    main noOpts [] none (fun _ _ => Except.ok ["100".toList]) 1 (fun _ => false) =
      ⟨2, [Write.Println "Usage: pidof [OPTIONS] <process-name>".toList], [], []⟩ ∧
    main { noOpts with Kill := true } ["foo".toList] none
        (fun _ _ => Except.ok ["300".toList, "100".toList]) 1 (fun _ => false) =
      ⟨0, [Write.Println "100 300".toList], [], [(100, SIGINT), (300, SIGINT)]⟩ ∧
    main { noOpts with Kill := true } ["foo".toList] none
        (fun _ _ => Except.ok ["300".toList, "200".toList, "100".toList]) 200 (fun _ => false) =
      ⟨130, [], [], [(100, SIGINT), (200, SIGINT)]⟩ ∧
    main { noOpts with Kill := true, IgnoreSelf := true } ["foo".toList] none
        (fun _ _ => Except.ok ["300".toList, "200".toList, "100".toList]) 200 (fun _ => false) =
      ⟨0, [Write.Println "100 300".toList], [], [(100, SIGINT), (300, SIGINT)]⟩ := by
  refine ⟨by rfl, by rfl, by rfl, by rfl, by rfl, by rfl, by rfl, by rfl, by rfl⟩

end Gopidof
